import Mathlib

/-!
Verification of the serializable-excel column-ordering and record/grid
mapping engine.

The Python source is embedded shallowly:

* `ExcelWriter._build_headers`, `_collect_dynamic_keys`, `_build_data_rows`
  and `ExcelWriter.write` (src/serializable_excel/excel_writer.py) become
  `buildHeaders`, `collectDynamicKeys`, `buildDataRows` and `write`;
* `read_excel_rows` and `read_excel_headers` (src/serializable_excel/excel_io.py)
  become `readExcelRows` and `readHeadersWs`;
* Python dicts become association lists with first-match lookup and
  update-in-place insertion (`alookup`, `dictInsert`), matching dict
  semantics (later assignment overwrites the value, keeps the slot);
* `sorted` on a set of strings becomes `sortStrings` composed with `dedup`,
  using a code-point lexicographic order identical to Python's;
* the read path (`ExcelReader`) and the field/order helpers that are not
  present under src are modelled from the specification, each marked in its
  doc comment.

Cell values are modelled by `CellValue` (non-null scalars); a blank cell is
`Option.none`.
-/

/-- Boolean code-point lexicographic comparison of character lists, the
order Python uses to compare strings. -/
def charsLe : List Char → List Char → Bool
  | [], _ => true
  | _ :: _, [] => false
  | a :: as, b :: bs =>
    if a.toNat < b.toNat then true
    else if b.toNat < a.toNat then false
    else charsLe as bs

/-- Lexicographic comparison of strings by code point, as in Python. -/
def strLe (a b : String) : Bool :=
  charsLe a.data b.data

/-- Propositional form of `strLe`, used as the sort relation. -/
def strLeProp (a b : String) : Prop :=
  strLe a b = true

instance (a b : String) : Decidable (strLeProp a b) := by
  unfold strLeProp; infer_instance

instance : DecidableRel strLeProp := by
  intro a b; infer_instance

/-- Sorting a list of strings ascending, the model of Python `sorted`. -/
def sortStrings (l : List String) : List String :=
  List.insertionSort strLeProp l

/-- Whitespace stripping on a character list: drop leading and trailing
whitespace. -/
def stripChars (l : List Char) : List Char :=
  ((l.dropWhile Char.isWhitespace).reverse.dropWhile Char.isWhitespace).reverse

/-- Model of Python `str.strip` (as used by `read_excel_headers`). -/
def strStrip (s : String) : String :=
  ⟨stripChars s.data⟩

/-- First-match association-list lookup, the model of reading a Python
dict that was built with unique keys. -/
def alookup {κ β : Type} [DecidableEq κ] : List (κ × β) → κ → Option β
  | [], _ => none
  | p :: t, k => if p.1 = k then some p.2 else alookup t k

/-- Key list of an association list. -/
def keysOf {κ β : Type} (d : List (κ × β)) : List κ :=
  d.map Prod.fst

/-- Python dict assignment `d[k] = v`: overwrite in place when the key is
present, append otherwise. -/
def dictInsert {κ β : Type} [DecidableEq κ] (d : List (κ × β)) (k : κ) (v : β) :
    List (κ × β) :=
  if k ∈ keysOf d then d.map (fun p => if p.1 = k then (k, v) else p)
  else d ++ [(k, v)]

/-- Scalar cell values; a blank cell is represented by `Option.none`
around this type. -/
inductive CellValue : Type
  | vStr (s : String)
  | vInt (n : Int)
  deriving DecidableEq, Repr

/-- Runtime attribute values carried by a model instance: a scalar or a
dict (the shape of the dynamic attribute). -/
inductive PyValue : Type
  | cell (v : CellValue)
  | dict (m : List (String × CellValue))
  deriving DecidableEq, Repr

/-- A model instance: its attributes, as read by `getattr`. -/
structure Instance : Type where
  attrs : List (String × PyValue)
  deriving DecidableEq, Repr

/-- Static column descriptor (`Column` in descriptors.py): field name,
display header, required flag and declared default. -/
structure Column : Type where
  fieldName : String
  header : String
  required : Bool
  default : Option CellValue
  deriving DecidableEq, Repr

/-- Dynamic column descriptor (`DynamicColumn`): the name of the attribute
holding the open key→value mapping. -/
structure DynamicColumn : Type where
  name : String
  deriving DecidableEq, Repr

/-- A model class: its static columns in declaration order and its
optional dynamic column, as produced by `FieldMetadataExtractor`. -/
structure ModelClass : Type where
  columns : List Column
  dynamicField : Option DynamicColumn
  deriving DecidableEq, Repr

/-- Attribute read of a static field: `getattr(instance, field_name)`,
yielding the scalar it holds (blank when absent or non-scalar). -/
def staticAttr (inst : Instance) (fieldName : String) : Option CellValue :=
  match alookup inst.attrs fieldName with
  | some (.cell v) => some v
  | _ => none

/-- Lookup of one key of the instance's dynamic attribute; `none` when the
attribute is absent, not a dict, or lacks the key. -/
def instDynLookup (inst : Instance) (d : DynamicColumn) (k : String) : Option CellValue :=
  match alookup inst.attrs d.name with
  | some (.dict m) => alookup m k
  | _ => none

/-- Embedding of `ExcelWriter._collect_dynamic_keys`: the union of dynamic
keys across all instances, as the concatenation of the key lists of those
instances whose dynamic attribute is a dict (`getattr` default `{}`,
`isinstance(…, dict)` guard). The Python set is this list read up to
membership. -/
def collectDynamicKeys (instances : List Instance) (d : DynamicColumn) : List String :=
  instances.foldl
    (fun acc inst =>
      match (alookup inst.attrs d.name).getD (.dict []) with
      | .dict m => acc ++ keysOf m
      | _ => acc)
    []

/-- One step of the header-building loop of `_build_headers`: assign the
next column index to the header (dict assignment) and advance the index. -/
def headerStep (acc : List (String × Nat) × Nat) (h : String) : List (String × Nat) × Nat :=
  (dictInsert acc.1 h acc.2, acc.2 + 1)

/-- Embedding of `ExcelWriter._build_headers`: static headers in
declaration order get indices from 1, then the sorted set of collected
dynamic keys continues the numbering. -/
def buildHeaders (columnFields : List Column) (dynamicField : Option DynamicColumn)
    (instances : List Instance) : List (String × Nat) :=
  let afterStatic := (columnFields.map Column.header).foldl headerStep ([], 1)
  match dynamicField with
  | none => afterStatic.1
  | some d =>
    ((sortStrings (collectDynamicKeys instances d).dedup).foldl headerStep afterStatic).1

/-- Header sequence paired with positions `start, start+1, …`, the shape
`_build_headers` produces when no header is assigned twice. -/
def withPositions : List String → Nat → List (String × Nat)
  | [], _ => []
  | h :: t, i => (h, i) :: withPositions t (i + 1)

/-- Dynamic part of the header sequence: the sorted distinct collected
keys, empty when the model has no dynamic column. -/
def dynKeyList (dynamicField : Option DynamicColumn) (instances : List Instance) :
    List String :=
  match dynamicField with
  | none => []
  | some d => sortStrings (collectDynamicKeys instances d).dedup

/-- Modelled from the spec: `FieldExtractor.static_value` (§4.3), a plain
attribute read; the FieldExtractor module is not present under src. -/
def extractStaticFieldValue (inst : Instance) (c : Column) : Option CellValue :=
  staticAttr inst c.fieldName

/-- Modelled from the spec: `FieldExtractor.dynamic_values` (§4.3), the
instance's dynamic pairs padded to the closed key set (blank marker for a
key the instance lacks); the FieldExtractor module is not present under
src. -/
def extractDynamicFieldValue (inst : Instance) (d : DynamicColumn)
    (closedKeys : List String) : List (String × Option CellValue) :=
  closedKeys.map (fun k => (k, instDynLookup inst d k))

/-- Row dict for one instance, mirroring the body of the loop in
`ExcelWriter._build_data_rows`: static values keyed by header, then the
padded dynamic values merged in by dict update. -/
def buildRowData (inst : Instance) (columnFields : List Column)
    (dynamicField : Option DynamicColumn) (closedKeys : List String) :
    List (String × Option CellValue) :=
  let statics := columnFields.foldl
    (fun acc c => dictInsert acc c.header (extractStaticFieldValue inst c)) []
  match dynamicField with
  | none => statics
  | some d =>
    (extractDynamicFieldValue inst d closedKeys).foldl
      (fun acc p => dictInsert acc p.1 p.2) statics

/-- Embedding of `ExcelWriter._build_data_rows`: one row dict per
instance, in input order. -/
def buildDataRows (instances : List Instance) (columnFields : List Column)
    (dynamicField : Option DynamicColumn) : List (List (String × Option CellValue)) :=
  let closedKeys := dynKeyList dynamicField instances
  instances.map (fun inst => buildRowData inst columnFields dynamicField closedKeys)

/-- Python `dict.get`: `none` both when the key is absent and when the
stored value is the blank marker. -/
def dictGet (row : List (String × Option CellValue)) (h : String) : Option CellValue :=
  (alookup row h).join

/-- Worksheet content as produced by `write_excel`: the header row (cells
column→header string) and the data rows (cells column→value, blank cells
included). -/
structure Worksheet : Type where
  headerCells : List (Nat × String)
  dataCells : List (List (Nat × Option CellValue))
  deriving DecidableEq, Repr

/-- Embedding of `write_excel` in excel_io.py: place each header at its
column in row 1, then for each data row place `row_data.get(header)` at
that header's column. -/
def writeExcelSheet (headers : List (String × Nat))
    (dataRows : List (List (String × Option CellValue))) : Worksheet where
  headerCells := headers.map (fun p => (p.2, p.1))
  dataCells := dataRows.map (fun row => headers.map (fun p => (p.2, dictGet row p.1)))

/-- Failure modes of `ExcelWriter.write` (each a `ValueError` in the
source). -/
inductive WriteError : Type
  | emptyInstances
  | missingFilePath
  | noColumnFields
  deriving DecidableEq, Repr

/-- Embedding of `ExcelWriter.write`: the guard chain of the source, then
header construction, row construction and the grid writer. The produced
`Worksheet` stands for the saved file or returned bytes; a missing file
path (Python's falsy check) is modelled as `none`. -/
def write (model : ModelClass) (instances : List Instance)
    (filePath : Option String) (returnBytes : Bool) : Except WriteError Worksheet :=
  if instances = [] then .error .emptyInstances
  else if returnBytes = false ∧ filePath = none then .error .missingFilePath
  else if model.columns = [] then .error .noColumnFields
  else
    let headers := buildHeaders model.columns model.dynamicField instances
    let dataRows := buildDataRows instances model.columns model.dynamicField
    .ok (writeExcelSheet headers dataRows)

/-- Embedding of `ExcelModel.to_excel`: delegate to the writer with a file
path and `return_bytes=False`. -/
def toExcel (model : ModelClass) (instances : List Instance) (filePath : String) :
    Except WriteError Worksheet :=
  write model instances (some filePath) false

/-- Row-extraction loop of `read_excel_rows`: walk the cells of one row,
skipping a cell whose column was already taken or whose value is null,
and record the rest in order. -/
def extractGo (acc : List (Nat × CellValue)) :
    List (Nat × Option CellValue) → List (Nat × CellValue)
  | [] => acc
  | cell :: rest =>
    if cell.1 ∈ keysOf acc then extractGo acc rest
    else
      match cell.2 with
      | none => extractGo acc rest
      | some v => extractGo (acc ++ [(cell.1, v)]) rest

/-- Data extracted from one worksheet row by `read_excel_rows`. -/
def extractRowData (cells : List (Nat × Option CellValue)) : List (Nat × CellValue) :=
  extractGo [] cells

/-- Core of `read_excel_rows` applied to a list of rows: extract each row
and keep only the non-empty results. -/
def readExcelRowsOnList (rows : List (List (Nat × Option CellValue))) :
    List (List (Nat × CellValue)) :=
  (rows.map extractRowData).filter (fun r => decide (r ≠ []))

/-- An openpyxl worksheet as `read_excel_rows` sees it: cells of each row
number, and the sheet's `max_row`. -/
structure Sheet : Type where
  rowCells : Nat → List (Nat × Option CellValue)
  maxRow : Nat

/-- Embedding of `read_excel_rows` in excel_io.py: iterate the row numbers
from `start_row` to `max_row` (the sheet's own when none is given),
extract each row and keep the non-empty ones. -/
def readExcelRows (sheet : Sheet) (startRow : Nat) (maxRow : Option Nat) :
    List (List (Nat × CellValue)) :=
  let endRow := maxRow.getD sheet.maxRow
  readExcelRowsOnList ((List.range' startRow (endRow + 1 - startRow)).map sheet.rowCells)

/-- Embedding of `read_excel_headers` applied to a written worksheet: a
dict column→stripped header string built from the header row cells. -/
def readHeadersWs (ws : Worksheet) : List (Nat × String) :=
  ws.headerCells.foldl (fun acc p => dictInsert acc p.1 (strStrip p.2)) []

/-- Failure modes of the read path (`ColumnNotFoundError` and the
construction facility's `ValidationError`). -/
inductive ReadError : Type
  | columnNotFound (header : String)
  | validation (fieldName : String)
  deriving DecidableEq, Repr

/-- Reconstructed record: static field values keyed by field name, and the
collected dynamic mapping when dynamic collection applies. -/
structure RecordData : Type where
  staticVals : List (String × Option CellValue)
  dyn : Option (List (String × CellValue))
  deriving DecidableEq, Repr

/-- Lookup of one key of a reconstructed record's dynamic mapping. -/
def recDynLookup (r : RecordData) (k : String) : Option CellValue :=
  alookup (r.dyn.getD []) k

/-- First position carrying the given header in an incoming header map. -/
def findPosition (headerMap : List (Nat × String)) (h : String) : Option Nat :=
  (headerMap.find? (fun p => p.2 = h)).map Prod.fst

/-- Modelled from the spec: the static-binding half of
`RecordReassembler.assemble` (§4.6); the ExcelReader module is not present
under src. For each declared static column in order: a header missing from
the incoming map fails with `ColumnNotFoundError` when the column is
required and substitutes the declared default otherwise; a mapped header
binds the row's value at that position (blank when the cell is empty). -/
def bindStatics (cols : List Column) (headerMap : List (Nat × String))
    (row : List (Nat × CellValue)) :
    Except ReadError (List (String × Option CellValue)) :=
  match cols with
  | [] => .ok []
  | c :: rest =>
    match findPosition headerMap c.header with
    | none =>
      if c.required then .error (.columnNotFound c.header)
      else
        match bindStatics rest headerMap row with
        | .error e => .error e
        | .ok vals => .ok ((c.fieldName, c.default) :: vals)
    | some p =>
      match bindStatics rest headerMap row with
      | .error e => .error e
      | .ok vals => .ok ((c.fieldName, alookup row p) :: vals)

/-- Modelled from the spec: the dynamic-collection half of
`RecordReassembler.assemble` (§4.6); the ExcelReader module is not present
under src. Every incoming header not claimed by a static column whose cell
is non-blank is routed into the dynamic mapping. -/
def collectUnmatched (cols : List Column) (headerMap : List (Nat × String))
    (row : List (Nat × CellValue)) : List (String × CellValue) :=
  match headerMap with
  | [] => []
  | (p, h) :: rest =>
    if cols.any (fun c => c.header = h) then collectUnmatched cols rest row
    else
      match alookup row p with
      | some v => (h, v) :: collectUnmatched cols rest row
      | none => collectUnmatched cols rest row

/-- Modelled from the spec: the construct-or-fail facility (§6) as the
reader uses it; a required field bound to a blank value is a validation
failure, otherwise the record is produced. -/
def constructRecord (cols : List Column) (vals : List (String × Option CellValue))
    (dyn : Option (List (String × CellValue))) : Except ReadError RecordData :=
  match cols.find? (fun c => c.required && ((alookup vals c.fieldName).getD none).isNone) with
  | some c => .error (.validation c.fieldName)
  | none => .ok ⟨vals, dyn⟩

/-- Modelled from the spec: `RecordReassembler.assemble` for one row
(§4.6); the ExcelReader module is not present under src. -/
def assembleRow (model : ModelClass) (headerMap : List (Nat × String))
    (row : List (Nat × CellValue)) (allowDynamic : Bool) : Except ReadError RecordData :=
  match bindStatics model.columns headerMap row with
  | .error e => .error e
  | .ok vals =>
    let dyn :=
      if allowDynamic then
        model.dynamicField.map (fun _ => collectUnmatched model.columns headerMap row)
      else none
    constructRecord model.columns vals dyn

/-- Modelled from the spec: `RecordReassembler.assemble` over the ordered
row list (§4.6); a failing row aborts the whole read, so no partial batch
is ever returned. -/
def assemble (model : ModelClass) (headerMap : List (Nat × String))
    (rows : List (List (Nat × CellValue))) (allowDynamic : Bool) :
    Except ReadError (List RecordData) :=
  match rows with
  | [] => .ok []
  | r :: rest =>
    match assembleRow model headerMap r allowDynamic with
    | .error e => .error e
    | .ok rec =>
      match assemble model headerMap rest allowDynamic with
      | .error e => .error e
      | .ok recs => .ok (rec :: recs)

/-- Modelled from the spec: `ExcelModel.from_excel` on the content of a
written worksheet — read the header map and the data rows, then
reassemble; the ExcelReader module is not present under src. -/
def fromExcelSheet (model : ModelClass) (ws : Worksheet) (dynamicColumns : Bool) :
    Except ReadError (List RecordData) :=
  assemble model (readHeadersWs ws)
    (readExcelRowsOnList ws.dataCells) dynamicColumns

/-- Configuration failure of the order resolver. -/
inductive ConfigError : Type
  | headerCollision
  deriving DecidableEq, Repr

/-- Rank key comparison of the order resolver: ascending by numeric rank,
header string (code-point lexicographic) as tie-break. -/
def rankLe (rank : String → Option Int) (h h' : String) : Prop :=
  (rank h).getD 0 < (rank h').getD 0 ∨
    ((rank h).getD 0 = (rank h').getD 0 ∧ strLeProp h h')

instance (rank : String → Option Int) (h h' : String) : Decidable (rankLe rank h h') := by
  unfold rankLe; infer_instance

instance (rank : String → Option Int) : DecidableRel (rankLe rank) := by
  intro h h'; infer_instance

/-- Combined candidate rank of a header: the static ranking function on a
static header, the mapping returned by the dynamic ranking function on a
dynamic key. -/
def combinedRank (staticHeaders : List String)
    (staticRankFn : Option (String → Option Int))
    (dynRanks : List (String × Int)) : String → Option Int :=
  fun h =>
    if h ∈ staticHeaders then (staticRankFn.getD (fun _ => none)) h
    else alookup dynRanks h

/-- Modelled from the spec: `ColumnOrderResolver.resolve` (§4.2); the
ordering-hint engine is exercised by the tests under src/tests but its
module is not present under src. Steps: fail on a static/dynamic header
collision; pair every header with its optional rank; sort the ranked ones
ascending by `(rank, header)`; append the unranked ones, static headers in
declaration order before dynamic keys in lexicographic order; assign
positions from 1. `resolveLayout` is the ordering stage: sort the ranked
headers by `(rank, header)` ascending, append the unranked ones (static in
declaration order, then the pre-sorted dynamic keys), number from 1. -/
def resolveLayout (staticHeaders : List String) (rank : String → Option Int)
    (sortedDyn : List String) : List (String × Nat) :=
  let all := staticHeaders ++ sortedDyn
  withPositions
    (List.insertionSort (rankLe rank) (all.filter (fun h => (rank h).isSome)) ++
      all.filter (fun h => (rank h).isNone)) 1

/-- Rank mapping returned by the dynamic ranking function on the sorted
dynamic key set, empty when no function is given. -/
def dynRanksOf (dynRankFn : Option (List String → List (String × Int)))
    (sortedDyn : List String) : List (String × Int) :=
  match dynRankFn with
  | none => []
  | some f => f sortedDyn

/-- Modelled from the spec: the entry point of `ColumnOrderResolver.resolve`
(§4.2) — fail on a static/dynamic header collision, otherwise order the
combined candidates with `resolveLayout` under the combined rank. -/
def resolve (staticHeaders : List String)
    (staticRankFn : Option (String → Option Int)) (dynKeys : List String)
    (dynRankFn : Option (List String → List (String × Int))) :
    Except ConfigError (List (String × Nat)) :=
  if dynKeys.any (fun k => k ∈ staticHeaders) then .error .headerCollision
  else
    .ok (resolveLayout staticHeaders
      (combinedRank staticHeaders staticRankFn
        (dynRanksOf dynRankFn (sortStrings dynKeys.dedup)))
      (sortStrings dynKeys.dedup))

/-- Positions-to-header association list of a header sequence, the shape
of the header map the reader receives for a written sheet. -/
def posHeader (hs : List String) (i : Nat) : List (Nat × String) :=
  (withPositions hs i).map (fun p => (p.2, p.1))

/-- Data cells of one written row: each header's column carries the row
dict's value for that header. -/
def cellsOf (hs : List String) (i : Nat) (f : String → Option CellValue) :
    List (Nat × Option CellValue) :=
  (withPositions hs i).map (fun q => (q.2, f q.1))

/-- Per-instance contribution to the dynamic key set: the keys of the
dynamic attribute when it is a dict, nothing otherwise. -/
def dynContribution (inst : Instance) (d : DynamicColumn) : List String :=
  match (alookup inst.attrs d.name).getD (.dict []) with
  | .dict m => keysOf m
  | _ => []

/-- Well-formedness of a model class: at least one static column, distinct
display headers, distinct field names, headers stable under stripping. -/
def ValidModel (m : ModelClass) : Prop :=
  m.columns ≠ [] ∧ (m.columns.map Column.header).Nodup ∧
    (m.columns.map Column.fieldName).Nodup ∧
    ∀ c ∈ m.columns, strStrip c.header = c.header

instance (m : ModelClass) : Decidable (ValidModel m) := by
  unfold ValidModel
  infer_instance

/-- Well-formedness of the dynamic attribute of one instance: when the
model declares a dynamic column, the attribute is a dict with distinct,
strip-stable keys that do not collide with a static header. -/
def dynAttrOk (columns : List Column) (inst : Instance)
    (dynamicField : Option DynamicColumn) : Bool :=
  match dynamicField with
  | none => true
  | some d =>
    match alookup inst.attrs d.name with
    | some (.dict dm) =>
      decide ((keysOf dm).Nodup) &&
        (keysOf dm).all (fun k =>
          decide (strStrip k = k) && decide (k ∉ columns.map Column.header))
    | _ => false

/-- A valid instance of a model: every static field holds a scalar and
the dynamic attribute is well-formed. -/
def InstanceOk (m : ModelClass) (inst : Instance) : Prop :=
  (∀ c ∈ m.columns, (staticAttr inst c.fieldName).isSome = true) ∧
    dynAttrOk m.columns inst m.dynamicField = true

instance (m : ModelClass) (inst : Instance) : Decidable (InstanceOk m inst) := by
  unfold InstanceOk
  infer_instance

/-- Whether an `Except` result is a success. -/
def exceptIsOk {ε α : Type} : Except ε α → Bool
  | .ok _ => true
  | .error _ => false

/-- A write batch in which some collected dynamic key equals a static
column header. -/
def hasCollision (m : ModelClass) (insts : List Instance) : Prop :=
  match m.dynamicField with
  | none => False
  | some d => ∃ k ∈ collectDynamicKeys insts d, k ∈ m.columns.map Column.header

instance (m : ModelClass) (insts : List Instance) : Decidable (hasCollision m insts) := by
  unfold hasCollision
  cases m.dynamicField with
  | none => exact isFalse (fun h => h)
  | some d => infer_instance

/-- The layout invariant of the spec's data model: positions form the
contiguous set 1..N, headers are distinct, and the header set is exactly
the union of the static headers and the observed dynamic keys. -/
def LayoutInvariant (layout : List (String × Nat))
    (staticHeaders dynKeys : List String) : Prop :=
  List.Perm (layout.map Prod.snd) (List.range' 1 layout.length) ∧
    (keysOf layout).Nodup ∧
    (∀ h ∈ keysOf layout, h ∈ staticHeaders ∨ h ∈ dynKeys) ∧
    (∀ h ∈ staticHeaders, h ∈ keysOf layout) ∧
    (∀ k ∈ dynKeys, k ∈ keysOf layout)

instance (layout : List (String × Nat)) (staticHeaders dynKeys : List String) :
    Decidable (LayoutInvariant layout staticHeaders dynKeys) := by
  unfold LayoutInvariant
  infer_instance

/-- Witness model with four required static columns, no dynamic column
(the spec's UserModel). -/
def mUser : ModelClass :=
  ⟨[⟨"name", "Name", true, none⟩, ⟨"age", "Age", true, none⟩,
    ⟨"email", "Email", true, none⟩, ⟨"phone", "Phone", true, none⟩], none⟩

/-- Witness model with two static columns and a dynamic column (the
spec's ForecastModel). -/
def mForecast : ModelClass :=
  ⟨[⟨"month", "Month", true, none⟩, ⟨"manager", "Manager", true, none⟩],
    some ⟨"characteristics"⟩⟩

/-- Witness instance whose dynamic keys arrive unsorted. -/
def instZ : Instance :=
  ⟨[("month", .cell (.vStr "2024-01")), ("manager", .cell (.vStr "Alice")),
    ("characteristics", .dict
      [("Zebra", .vStr "z"), ("Alpha", .vStr "a"), ("Beta", .vStr "b")])]⟩

/-- Witness instance carrying the same dynamic key set as `instZ` in a
different order. -/
def instZ2 : Instance :=
  ⟨[("month", .cell (.vStr "2024-02")), ("manager", .cell (.vStr "Bob")),
    ("characteristics", .dict
      [("Beta", .vStr "b"), ("Zebra", .vStr "z"), ("Alpha", .vStr "a")])]⟩

/-- Witness instance whose dynamic attribute is a scalar, not a dict. -/
def instBadDyn : Instance :=
  ⟨[("month", .cell (.vStr "2024-03")), ("manager", .cell (.vStr "Carol")),
    ("characteristics", .cell (.vStr "oops"))]⟩

/-- Counterexample model: one static column whose header a dynamic key
can collide with. -/
def mCollide : ModelClass :=
  ⟨[⟨"name", "Name", true, none⟩], some ⟨"characteristics"⟩⟩

/-- Counterexample instance whose dynamic key equals the static header. -/
def instCollide : Instance :=
  ⟨[("name", .cell (.vStr "Alice")),
    ("characteristics", .dict [("Name", .vStr "x")])]⟩

/-- Witness header map lacking the required static header Phone. -/
def hmMissingPhone : List (Nat × String) :=
  [(1, "Name"), (2, "Age"), (3, "Email")]

/-- Witness data rows for the header map lacking Phone. -/
def rowsMissingPhone : List (List (Nat × CellValue)) :=
  [[(1, .vStr "Alice"), (2, .vInt 25), (3, .vStr "alice")]]

/-- Witness static rank hints with a gap (B jumps to 5). -/
def rankGap1 : String → Option Int :=
  fun h => if h = "A" then some 1 else if h = "B" then some 5 else none

/-- Witness static rank hints without the gap. -/
def rankGap2 : String → Option Int :=
  fun h => if h = "A" then some 1 else if h = "B" then some 2 else none

/-- Witness dynamic rank hints placing K after the static ranks, with a
gap. -/
def dynRankGap1 : List String → List (String × Int) :=
  fun _ => [("K", 7)]

/-- Witness dynamic rank hints placing K after the static ranks, without
the gap. -/
def dynRankGap2 : List String → List (String × Int) :=
  fun _ => [("K", 3)]

deriving instance DecidableEq for Except

theorem char_toNat_inj {a b : Char} (h : a.toNat = b.toNat) : a = b := by
  apply Char.ext
  apply UInt32.ext
  exact h

theorem string_data_inj {a b : String} (h : a.data = b.data) : a = b :=
  congrArg String.mk h

theorem charsLe_total (l m : List Char) : charsLe l m = true ∨ charsLe m l = true := by
  induction l generalizing m with
  | nil => left; rfl
  | cons a as ih =>
    cases m with
    | nil => right; rfl
    | cons b bs =>
      rcases Nat.lt_trichotomy a.toNat b.toNat with h | h | h
      · left
        simp [charsLe, h]
      · have h1 : ¬ a.toNat < b.toNat := by omega
        have h2 : ¬ b.toNat < a.toNat := by omega
        rcases ih bs with ih1 | ih1
        · left
          simp [charsLe, h1, h2, ih1]
        · right
          simp [charsLe, h1, h2, ih1]
      · right
        simp [charsLe, h]

theorem charsLe_trans {l m n : List Char} (h1 : charsLe l m = true)
    (h2 : charsLe m n = true) : charsLe l n = true := by
  induction l generalizing m n with
  | nil => rfl
  | cons a as ih =>
    cases m with
    | nil => simp [charsLe] at h1
    | cons b bs =>
      cases n with
      | nil => simp [charsLe] at h2
      | cons c cs =>
        rcases Nat.lt_trichotomy a.toNat b.toNat with hab | hab | hab <;>
          rcases Nat.lt_trichotomy b.toNat c.toNat with hbc | hbc | hbc <;>
          simp [charsLe, hab, hbc, Nat.lt_asymm, Nat.lt_irrefl] at h1 h2 ⊢
        all_goals
          first
          | omega
          | (refine Or.inl (by omega))
          | (refine Or.inr ⟨by omega, ?_⟩; exact ih h1 h2)
          | exact ih h1 h2

theorem charsLe_antisymm {l m : List Char} (h1 : charsLe l m = true)
    (h2 : charsLe m l = true) : l = m := by
  induction l generalizing m with
  | nil =>
    cases m with
    | nil => rfl
    | cons b bs => simp [charsLe] at h2
  | cons a as ih =>
    cases m with
    | nil => simp [charsLe] at h1
    | cons b bs =>
      rcases Nat.lt_trichotomy a.toNat b.toNat with hab | hab | hab
      · simp [charsLe, hab, Nat.lt_asymm hab] at h2
      · have h3 : ¬ a.toNat < b.toNat := by omega
        have h4 : ¬ b.toNat < a.toNat := by omega
        simp [charsLe, h3, h4] at h1 h2
        rw [char_toNat_inj hab, ih h1 h2]
      · simp [charsLe, hab, Nat.lt_asymm hab] at h1

instance : IsTotal String strLeProp :=
  ⟨fun a b => charsLe_total a.data b.data⟩

instance : IsTrans String strLeProp :=
  ⟨fun _ _ _ h1 h2 => charsLe_trans h1 h2⟩

instance : IsAntisymm String strLeProp :=
  ⟨fun _ _ h1 h2 => string_data_inj (charsLe_antisymm h1 h2)⟩

theorem sortStrings_perm (l : List String) : List.Perm (sortStrings l) l :=
  List.perm_insertionSort strLeProp l

theorem sortStrings_sorted (l : List String) : (sortStrings l).Sorted strLeProp :=
  List.sorted_insertionSort strLeProp l

theorem sortStrings_nodup {l : List String} (h : l.Nodup) : (sortStrings l).Nodup :=
  (sortStrings_perm l).nodup_iff.mpr h

theorem mem_sortStrings {l : List String} {a : String} :
    a ∈ sortStrings l ↔ a ∈ l :=
  (sortStrings_perm l).mem_iff

theorem alookup_eq_none {κ β : Type} [DecidableEq κ] {d : List (κ × β)} {k : κ}
    (h : k ∉ keysOf d) : alookup d k = none := by
  induction d with
  | nil => rfl
  | cons p t ih =>
    have hne : p.1 ≠ k := by
      intro he
      exact h (by simp [keysOf, he])
    have ht : k ∉ keysOf t := fun hm => h (by simp [keysOf] at hm ⊢; right; exact hm)
    simp [alookup, hne, ih ht]

theorem alookup_append_left {κ β : Type} [DecidableEq κ] {d e : List (κ × β)} {k : κ}
    (h : k ∈ keysOf d) : alookup (d ++ e) k = alookup d k := by
  induction d with
  | nil => simp [keysOf] at h
  | cons p t ih =>
    by_cases hp : p.1 = k
    · simp [alookup, hp]
    · have ht : k ∈ keysOf t := by
        simp [keysOf] at h ⊢
        rcases h with h | h
        · exact absurd h.symm hp
        · exact h
      simp [alookup, hp, ih ht]

theorem alookup_append_right {κ β : Type} [DecidableEq κ] {d e : List (κ × β)} {k : κ}
    (h : k ∉ keysOf d) : alookup (d ++ e) k = alookup e k := by
  induction d with
  | nil => rfl
  | cons p t ih =>
    have hne : p.1 ≠ k := by
      intro he
      exact h (by simp [keysOf, he])
    have ht : k ∉ keysOf t := fun hm => h (by simp [keysOf] at hm ⊢; right; exact hm)
    simp [alookup, hne, ih ht]

theorem alookup_map_pair {α β κ : Type} [DecidableEq κ] (l : List α) (f : α → κ)
    (g : α → β) (a : α) (hmem : a ∈ l) (hnd : (l.map f).Nodup) :
    alookup (l.map (fun x => (f x, g x))) (f a) = some (g a) := by
  induction l with
  | nil => simp at hmem
  | cons x t ih =>
    rcases List.mem_cons.mp hmem with rfl | hta
    · simp [alookup]
    · have hne : f x ≠ f a := by
        intro he
        have : f a ∈ t.map f := List.mem_map_of_mem f hta
        rw [← he] at this
        exact (List.nodup_cons.mp hnd).1 this
      simp [alookup, hne, ih hta (List.nodup_cons.mp hnd).2]

theorem keysOf_append {κ β : Type} (d e : List (κ × β)) :
    keysOf (d ++ e) = keysOf d ++ keysOf e := by
  simp [keysOf]

theorem dictInsert_of_fresh {κ β : Type} [DecidableEq κ] {d : List (κ × β)} {k : κ}
    (v : β) (h : k ∉ keysOf d) : dictInsert d k v = d ++ [(k, v)] := by
  simp [dictInsert, h]

theorem keysOf_withPositions (hs : List String) (i : Nat) :
    keysOf (withPositions hs i) = hs := by
  induction hs generalizing i with
  | nil => rfl
  | cons h t ih => simp [withPositions, keysOf] at ih ⊢; exact ih _

theorem snd_withPositions (hs : List String) (i : Nat) :
    (withPositions hs i).map Prod.snd = List.range' i hs.length := by
  induction hs generalizing i with
  | nil => rfl
  | cons h t ih => simp [withPositions, List.range'_succ, ih]

theorem withPositions_append (l m : List String) (i : Nat) :
    withPositions (l ++ m) i = withPositions l i ++ withPositions m (i + l.length) := by
  induction l generalizing i with
  | nil => simp [withPositions]
  | cons h t ih =>
    simp [withPositions, ih (i + 1)]
    have : i + 1 + t.length = i + (t.length + 1) := by omega
    rw [this]

theorem pos_bound_withPositions {hs : List String} {i : Nat} {p : String × Nat}
    (h : p ∈ withPositions hs i) : i ≤ p.2 ∧ p.2 < i + hs.length := by
  induction hs generalizing i with
  | nil => simp [withPositions] at h
  | cons x t ih =>
    simp [withPositions] at h
    rcases h with rfl | h
    · simp
    · have h2 := ih h
      simp only [List.length_cons]
      omega

theorem foldl_headerStep_fresh (hs : List String) (d : List (String × Nat)) (i : Nat)
    (hnd : hs.Nodup) (hfresh : ∀ h ∈ hs, h ∉ keysOf d) :
    hs.foldl headerStep (d, i) = (d ++ withPositions hs i, i + hs.length) := by
  induction hs generalizing d i with
  | nil => simp [withPositions]
  | cons h t ih =>
    have hstep : headerStep (d, i) h = (d ++ [(h, i)], i + 1) := by
      simp [headerStep, dictInsert_of_fresh i (hfresh h (List.mem_cons_self h t))]
    have hfresh2 : ∀ x ∈ t, x ∉ keysOf (d ++ [(h, i)]) := by
      intro x hx hmem
      rw [keysOf_append] at hmem
      rcases List.mem_append.mp hmem with hm | hm
      · exact hfresh x (List.mem_cons_of_mem h hx) hm
      · have hxh : x = h := by simpa [keysOf] using hm
        exact (List.nodup_cons.mp hnd).1 (hxh ▸ hx)
    calc (h :: t).foldl headerStep (d, i)
        = t.foldl headerStep (d ++ [(h, i)], i + 1) := by
          simp [List.foldl_cons, hstep]
      _ = (d ++ [(h, i)] ++ withPositions t (i + 1), i + 1 + t.length) :=
          ih (d ++ [(h, i)]) (i + 1) (List.nodup_cons.mp hnd).2 hfresh2
      _ = (d ++ withPositions (h :: t) i, i + (h :: t).length) := by
          have h1 : d ++ [(h, i)] ++ withPositions t (i + 1) =
              d ++ withPositions (h :: t) i := by
            simp [withPositions]
          have h2 : i + 1 + t.length = i + (h :: t).length := by
            simp only [List.length_cons]
            omega
          rw [h1, h2]

theorem buildHeaders_eq_withPositions (model : ModelClass) (instances : List Instance)
    (hnd : (model.columns.map Column.header ++ dynKeyList model.dynamicField instances).Nodup) :
    buildHeaders model.columns model.dynamicField instances =
      withPositions (model.columns.map Column.header ++
        dynKeyList model.dynamicField instances) 1 := by
  have hs := (List.nodup_append.mp hnd).1
  have hd := (List.nodup_append.mp hnd).2.1
  have hdisj := (List.nodup_append.mp hnd).2.2
  have hstatic : (model.columns.map Column.header).foldl headerStep ([], 1) =
      (withPositions (model.columns.map Column.header) 1,
        1 + (model.columns.map Column.header).length) := by
    have := foldl_headerStep_fresh (model.columns.map Column.header) [] 1 hs
      (by intro h _ hmem; simp [keysOf] at hmem)
    simpa using this
  cases hdyn : model.dynamicField with
  | none =>
    simp [buildHeaders, hstatic, dynKeyList]
  | some d =>
    rw [hdyn] at hd hdisj
    have hdl : dynKeyList (some d) instances =
        sortStrings (collectDynamicKeys instances d).dedup := rfl
    rw [hdl] at hd hdisj
    have hfresh : ∀ k ∈ sortStrings (collectDynamicKeys instances d).dedup,
        k ∉ keysOf (withPositions (model.columns.map Column.header) 1) := by
      intro k hk hmem
      rw [keysOf_withPositions] at hmem
      exact hdisj hmem hk
    have hdynfold := foldl_headerStep_fresh
      (sortStrings (collectDynamicKeys instances d).dedup)
      (withPositions (model.columns.map Column.header) 1)
      (1 + (model.columns.map Column.header).length) hd hfresh
    simp only [buildHeaders, hstatic, hdynfold]
    rw [withPositions_append, hdl]

theorem extractGo_extends (acc : List (Nat × CellValue))
    (cells : List (Nat × Option CellValue)) : ∃ t, extractGo acc cells = acc ++ t := by
  induction cells generalizing acc with
  | nil => exact ⟨[], by simp [extractGo]⟩
  | cons c rest ih =>
    by_cases hc : c.1 ∈ keysOf acc
    · simpa [extractGo, hc] using ih acc
    · cases hv : c.2 with
      | none => simpa [extractGo, hc, hv] using ih acc
      | some v =>
        rcases ih (acc ++ [(c.1, v)]) with ⟨t, ht⟩
        exact ⟨(c.1, v) :: t, by simp [extractGo, hc, hv, ht]⟩

theorem extractRowData_eq_nil_iff (cells : List (Nat × Option CellValue)) :
    extractRowData cells = [] ↔ ∀ c ∈ cells, c.2 = none := by
  induction cells with
  | nil => simp [extractRowData, extractGo]
  | cons c rest ih =>
    cases hv : c.2 with
    | none =>
      have hstep : extractRowData (c :: rest) = extractRowData rest := by
        simp [extractRowData, extractGo, keysOf, hv]
      rw [hstep, ih]
      constructor
      · intro hall x hx
        rcases List.mem_cons.mp hx with rfl | hx2
        · exact hv
        · exact hall x hx2
      · intro hall x hx
        exact hall x (List.mem_cons_of_mem c hx)
    | some v =>
      rcases extractGo_extends [(c.1, v)] rest with ⟨t, ht⟩
      have hstep : extractRowData (c :: rest) = (c.1, v) :: t := by
        simp [extractRowData, extractGo, keysOf, hv, ht]
      rw [hstep]
      constructor
      · intro habs
        simp at habs
      · intro hall
        have h2 := hall c (List.mem_cons_self c rest)
        rw [hv] at h2
        exact absurd h2 (by simp)

theorem keysOf_filterMap_subset {κ β : Type} (cells : List (κ × Option β)) :
    keysOf (cells.filterMap (fun q => q.2.map (fun v => (q.1, v)))) ⊆ keysOf cells := by
  intro k hk
  simp only [keysOf, List.mem_map] at hk
  rcases hk with ⟨p, hp, rfl⟩
  rcases List.mem_filterMap.mp hp with ⟨q, hq, hqe⟩
  cases hov : q.2 with
  | none => rw [hov] at hqe; simp at hqe
  | some v =>
    rw [hov] at hqe
    simp at hqe
    simp only [keysOf, List.mem_map]
    exact ⟨q, hq, by rw [← hqe]⟩

theorem extractGo_of_nodup (cells : List (Nat × Option CellValue))
    (acc : List (Nat × CellValue)) (hnd : (keysOf cells).Nodup)
    (hdisj : ∀ c ∈ cells, c.1 ∉ keysOf acc) :
    extractGo acc cells = acc ++ cells.filterMap (fun q => q.2.map (fun v => (q.1, v))) := by
  induction cells generalizing acc with
  | nil => simp [extractGo]
  | cons c rest ih =>
    have hc : c.1 ∉ keysOf acc := hdisj c (List.mem_cons_self c rest)
    have hndr : (keysOf rest).Nodup := by
      simp only [keysOf, List.map_cons, List.nodup_cons] at hnd
      exact hnd.2
    have hcr : c.1 ∉ keysOf rest := by
      simp only [keysOf, List.map_cons, List.nodup_cons] at hnd
      exact hnd.1
    cases hv : c.2 with
    | none =>
      have hdisj2 : ∀ x ∈ rest, x.1 ∉ keysOf acc :=
        fun x hx => hdisj x (List.mem_cons_of_mem c hx)
      simp [extractGo, hc, hv, ih acc hndr hdisj2]
    | some v =>
      have hdisj2 : ∀ x ∈ rest, x.1 ∉ keysOf (acc ++ [(c.1, v)]) := by
        intro x hx hmem
        rw [keysOf_append] at hmem
        rcases List.mem_append.mp hmem with hm | hm
        · exact hdisj x (List.mem_cons_of_mem c hx) hm
        · have : x.1 = c.1 := by simpa [keysOf] using hm
          exact hcr (this ▸ List.mem_map_of_mem Prod.fst hx)
      simp [extractGo, hc, hv, ih (acc ++ [(c.1, v)]) hndr hdisj2]

theorem extractRowData_of_nodup (cells : List (Nat × Option CellValue))
    (hnd : (keysOf cells).Nodup) :
    extractRowData cells = cells.filterMap (fun q => q.2.map (fun v => (q.1, v))) := by
  have := extractGo_of_nodup cells [] hnd (by intro c _ hm; simp [keysOf] at hm)
  simpa [extractRowData] using this

theorem alookup_filterMap {κ β : Type} [DecidableEq κ] (cells : List (κ × Option β))
    (hnd : (keysOf cells).Nodup) (k : κ) :
    alookup (cells.filterMap (fun q => q.2.map (fun v => (q.1, v)))) k =
      (alookup cells k).join := by
  induction cells with
  | nil => simp [alookup]
  | cons c rest ih =>
    have hndr : (keysOf rest).Nodup := by
      simp only [keysOf, List.map_cons, List.nodup_cons] at hnd
      exact hnd.2
    have hcr : c.1 ∉ keysOf rest := by
      simp only [keysOf, List.map_cons, List.nodup_cons] at hnd
      exact hnd.1
    by_cases hck : c.1 = k
    · cases hv : c.2 with
      | none =>
        have hkr : k ∉ keysOf (rest.filterMap (fun q => q.2.map (fun v => (q.1, v)))) :=
          fun hm => hcr (hck ▸ keysOf_filterMap_subset rest hm)
        simp [alookup, hv, hck, alookup_eq_none hkr]
      | some v => simp [alookup, hv, hck]
    · cases hv : c.2 with
      | none => simp [alookup, hv, hck, ih hndr]
      | some v => simp [alookup, hv, hck, ih hndr]

theorem findPosition_mem {headerMap : List (Nat × String)} {h : String} {p : Nat}
    (hfp : findPosition headerMap h = some p) : (p, h) ∈ headerMap := by
  unfold findPosition at hfp
  cases hq : headerMap.find? (fun q => q.2 = h) with
  | none => rw [hq] at hfp; simp at hfp
  | some q =>
    rw [hq] at hfp
    simp at hfp
    have hmem := List.mem_of_find?_eq_some hq
    have hpred := List.find?_some hq
    simp at hpred
    have : q = (p, h) := by
      cases q
      simp at hfp hpred ⊢
      exact ⟨hfp, hpred⟩
    exact this ▸ hmem

theorem findPosition_isSome {hs : List String} {h : String} (hmem : h ∈ hs) (i : Nat) :
    (findPosition (posHeader hs i) h).isSome := by
  induction hs generalizing i with
  | nil => simp at hmem
  | cons x t ih =>
    by_cases hx : x = h
    · simp [findPosition, posHeader, withPositions, List.find?, hx]
    · have ht : h ∈ t := by
        rcases List.mem_cons.mp hmem with rfl | hmem2
        · exact absurd rfl hx
        · exact hmem2
      have := ih ht (i + 1)
      simpa [findPosition, posHeader, withPositions, List.find?, hx] using this

theorem alookup_cellsOf {hs : List String} {i : Nat} {f : String → Option CellValue}
    {p : Nat} {h : String} (hmem : (p, h) ∈ posHeader hs i) :
    alookup (cellsOf hs i f) p = some (f h) := by
  induction hs generalizing i with
  | nil => simp [posHeader, withPositions] at hmem
  | cons x t ih =>
    simp only [posHeader, withPositions, List.map_cons, List.mem_cons] at hmem
    rcases hmem with heq | hmem2
    · have hp : p = i := (Prod.mk.injEq _ _ _ _).mp heq |>.1
      have hh : h = x := (Prod.mk.injEq _ _ _ _).mp heq |>.2
      simp [cellsOf, withPositions, alookup, hp, hh]
    · have hpge : i + 1 ≤ p := by
        have : ((p, h).1, (p, h).2) ∈ posHeader t (i + 1) := by
          simpa [posHeader] using hmem2
        rcases List.mem_map.mp this with ⟨q, hq, hqe⟩
        have := pos_bound_withPositions hq
        have hq2 : q.2 = p := by
          have := (Prod.mk.injEq _ _ _ _).mp hqe
          exact this.1
        omega
      have hne : i ≠ p := by omega
      have ihr := ih (i := i + 1) (by simpa [posHeader] using hmem2)
      simpa [cellsOf, withPositions, alookup, hne] using ihr

theorem foldl_dictInsert_map {α κ β : Type} [DecidableEq κ] (l : List α) (kf : α → κ)
    (vf : α → β) (acc : List (κ × β)) (hnd : (l.map kf).Nodup)
    (hfresh : ∀ x ∈ l, kf x ∉ keysOf acc) :
    l.foldl (fun a x => dictInsert a (kf x) (vf x)) acc =
      acc ++ l.map (fun x => (kf x, vf x)) := by
  induction l generalizing acc with
  | nil => simp
  | cons x t ih =>
    have hx : kf x ∉ keysOf acc := hfresh x (List.mem_cons_self x t)
    have hstep : dictInsert acc (kf x) (vf x) = acc ++ [(kf x, vf x)] :=
      dictInsert_of_fresh (vf x) hx
    have hndt : (t.map kf).Nodup := (List.nodup_cons.mp hnd).2
    have hfresh2 : ∀ y ∈ t, kf y ∉ keysOf (acc ++ [(kf x, vf x)]) := by
      intro y hy hmem
      rw [keysOf_append] at hmem
      rcases List.mem_append.mp hmem with hm | hm
      · exact hfresh y (List.mem_cons_of_mem x hy) hm
      · have : kf y = kf x := by simpa [keysOf] using hm
        exact (List.nodup_cons.mp hnd).1 (this ▸ List.mem_map_of_mem kf hy)
    calc (x :: t).foldl (fun a y => dictInsert a (kf y) (vf y)) acc
        = t.foldl (fun a y => dictInsert a (kf y) (vf y)) (acc ++ [(kf x, vf x)]) := by
          simp [List.foldl_cons, hstep]
      _ = acc ++ [(kf x, vf x)] ++ t.map (fun y => (kf y, vf y)) :=
          ih (acc ++ [(kf x, vf x)]) hndt hfresh2
      _ = acc ++ (x :: t).map (fun y => (kf y, vf y)) := by simp

theorem buildRowData_eq (inst : Instance) (cols : List Column)
    (dynF : Option DynamicColumn) (closedKeys : List String)
    (hnd : (cols.map Column.header ++ closedKeys).Nodup) :
    buildRowData inst cols dynF closedKeys =
      cols.map (fun c => (c.header, extractStaticFieldValue inst c)) ++
        (match dynF with
         | none => []
         | some d => closedKeys.map (fun k => (k, instDynLookup inst d k))) := by
  have hs := (List.nodup_append.mp hnd).1
  have hk := (List.nodup_append.mp hnd).2.1
  have hdisj := (List.nodup_append.mp hnd).2.2
  have hstatics : cols.foldl
      (fun acc c => dictInsert acc c.header (extractStaticFieldValue inst c)) [] =
      cols.map (fun c => (c.header, extractStaticFieldValue inst c)) := by
    have := foldl_dictInsert_map cols Column.header (extractStaticFieldValue inst) [] hs
      (by intro c _ hm; simp [keysOf] at hm)
    simpa using this
  cases dynF with
  | none => simpa [buildRowData] using hstatics
  | some d =>
    have hpairs : (extractDynamicFieldValue inst d closedKeys).map Prod.fst = closedKeys := by
      unfold extractDynamicFieldValue
      rw [List.map_map]
      have hcomp : (Prod.fst ∘ fun k : String => (k, instDynLookup inst d k)) =
          fun k : String => k := rfl
      rw [hcomp]
      simp
    have hfresh : ∀ p ∈ extractDynamicFieldValue inst d closedKeys,
        p.1 ∉ keysOf (cols.map (fun c => (c.header, extractStaticFieldValue inst c))) := by
      intro p hp hmem
      have hp1 : p.1 ∈ closedKeys := by
        rw [← hpairs]
        exact List.mem_map_of_mem Prod.fst hp
      have : p.1 ∈ cols.map Column.header := by
        simpa [keysOf] using hmem
      exact hdisj this hp1
    have hdyn := foldl_dictInsert_map (extractDynamicFieldValue inst d closedKeys)
      Prod.fst Prod.snd (cols.map (fun c => (c.header, extractStaticFieldValue inst c)))
      (by rw [hpairs]; exact hk) hfresh
    simp only [buildRowData, hstatics]
    rw [hdyn]
    simp [extractDynamicFieldValue]

theorem foldl_collect_acc (instances : List Instance) (d : DynamicColumn)
    (acc : List String) :
    instances.foldl
      (fun acc inst =>
        match (alookup inst.attrs d.name).getD (.dict []) with
        | .dict m => acc ++ keysOf m
        | _ => acc)
      acc = acc ++ instances.foldl
        (fun acc inst =>
          match (alookup inst.attrs d.name).getD (.dict []) with
          | .dict m => acc ++ keysOf m
          | _ => acc)
        [] := by
  induction instances generalizing acc with
  | nil => simp
  | cons inst rest ih =>
    simp only [List.foldl_cons]
    cases hv : (alookup inst.attrs d.name).getD (.dict []) with
    | dict m =>
      rw [ih (acc ++ keysOf m), ih ([] ++ keysOf m)]
      simp
    | cell v =>
      rw [ih acc]

theorem collectDynamicKeys_cons (inst : Instance) (rest : List Instance)
    (d : DynamicColumn) :
    collectDynamicKeys (inst :: rest) d =
      dynContribution inst d ++ collectDynamicKeys rest d := by
  simp only [collectDynamicKeys, List.foldl_cons, dynContribution]
  cases hv : (alookup inst.attrs d.name).getD (.dict []) with
  | dict m =>
    rw [foldl_collect_acc]
    simp
  | cell v =>
    rw [foldl_collect_acc]
    simp

theorem mem_dynContribution {inst : Instance} {d : DynamicColumn} {k : String} :
    k ∈ dynContribution inst d ↔
      ∃ m, alookup inst.attrs d.name = some (.dict m) ∧ k ∈ keysOf m := by
  unfold dynContribution
  cases ha : alookup inst.attrs d.name with
  | none => simp [keysOf]
  | some pv =>
    cases pv with
    | dict m => simp
    | cell v => simp

theorem mem_collectDynamicKeys {instances : List Instance} {d : DynamicColumn}
    {k : String} :
    k ∈ collectDynamicKeys instances d ↔
      ∃ inst ∈ instances, ∃ m,
        alookup inst.attrs d.name = some (.dict m) ∧ k ∈ keysOf m := by
  induction instances with
  | nil => simp [collectDynamicKeys]
  | cons inst rest ih =>
    rw [collectDynamicKeys_cons]
    simp only [List.mem_append, List.mem_cons, ih, mem_dynContribution]
    constructor
    · intro h
      rcases h with h | ⟨x, hx, hm⟩
      · exact ⟨inst, Or.inl rfl, h⟩
      · exact ⟨x, Or.inr hx, hm⟩
    · intro ⟨x, hx, hm⟩
      rcases hx with rfl | hx
      · exact Or.inl hm
      · exact Or.inr ⟨x, hx, hm⟩

theorem keysOf_posHeader (hs : List String) (i : Nat) :
    keysOf (posHeader hs i) = List.range' i hs.length := by
  rw [← snd_withPositions]
  simp [posHeader, keysOf, List.map_map]

theorem nodup_keysOf_posHeader (hs : List String) (i : Nat) :
    (keysOf (posHeader hs i)).Nodup := by
  rw [keysOf_posHeader]
  exact List.nodup_range' _ _

theorem findPosition_none_forall {headerMap : List (Nat × String)} {h : String}
    (hfp : findPosition headerMap h = none) : ∀ q ∈ headerMap, q.2 ≠ h := by
  unfold findPosition at hfp
  cases hfind : headerMap.find? (fun q => q.2 = h) with
  | some q => rw [hfind] at hfp; simp at hfp
  | none =>
    intro q hq
    have := List.find?_eq_none.mp hfind q hq
    simpa using this

theorem snd_posHeader_mem {hs : List String} {i : Nat} {q : Nat × String}
    (hq : q ∈ posHeader hs i) : q.2 ∈ hs := by
  rcases List.mem_map.mp hq with ⟨p, hp, rfl⟩
  have : p.1 ∈ keysOf (withPositions hs i) := List.mem_map_of_mem Prod.fst hp
  rw [keysOf_withPositions] at this
  exact this

theorem readHeadersWs_write (allH : List String)
    (rows : List (List (String × Option CellValue)))
    (hstrip : ∀ h ∈ allH, strStrip h = h) :
    readHeadersWs (writeExcelSheet (withPositions allH 1) rows) = posHeader allH 1 := by
  have hcells : (writeExcelSheet (withPositions allH 1) rows).headerCells =
      posHeader allH 1 := rfl
  rw [readHeadersWs, hcells]
  have hfold := foldl_dictInsert_map (posHeader allH 1) Prod.fst
    (fun q => strStrip q.2) [] ?_ ?_
  · have : (posHeader allH 1).foldl
        (fun acc p => dictInsert acc p.1 (strStrip p.2)) [] =
        (posHeader allH 1).map (fun q => (q.1, strStrip q.2)) := by
      simpa using hfold
    rw [this]
    have hmapeq : (posHeader allH 1).map (fun q => (q.1, strStrip q.2)) =
        (posHeader allH 1).map (fun q => (q.1, q.2)) := by
      apply List.map_congr_left
      intro q hq
      rw [hstrip q.2 (snd_posHeader_mem hq)]
    rw [hmapeq]
    simp
  · exact nodup_keysOf_posHeader allH 1
  · intro q _ hm
    simp [keysOf] at hm

theorem findPosition_eq_none {headerMap : List (Nat × String)} {h : String}
    (habs : ∀ q ∈ headerMap, q.2 ≠ h) : findPosition headerMap h = none := by
  unfold findPosition
  rw [List.find?_eq_none.mpr]
  · rfl
  · intro q hq
    simpa using habs q hq

theorem bindStatics_ok (cols : List Column) (headerMap : List (Nat × String))
    (row : List (Nat × CellValue)) (g : String → Option CellValue)
    (hfind : ∀ c ∈ cols, ∃ p, findPosition headerMap c.header = some p ∧
      alookup row p = g c.header) :
    bindStatics cols headerMap row = .ok (cols.map (fun c => (c.fieldName, g c.header))) := by
  induction cols with
  | nil => rfl
  | cons c rest ih =>
    rcases hfind c (List.mem_cons_self c rest) with ⟨p, hp, hrow⟩
    have ihr := ih (fun x hx => hfind x (List.mem_cons_of_mem c hx))
    simp [bindStatics, hp, ihr, hrow]

theorem bindStatics_missing_required (cols : List Column)
    (headerMap : List (Nat × String)) (row : List (Nat × CellValue))
    (hex : ∃ c ∈ cols, c.required = true ∧ ∀ q ∈ headerMap, q.2 ≠ c.header) :
    ∃ h, bindStatics cols headerMap row = .error (.columnNotFound h) ∧
      ∃ c ∈ cols, c.header = h ∧ c.required = true ∧ ∀ q ∈ headerMap, q.2 ≠ h := by
  induction cols with
  | nil => simp at hex
  | cons c rest ih =>
    by_cases hc : c.required = true ∧ ∀ q ∈ headerMap, q.2 ≠ c.header
    · refine ⟨c.header, ?_, c, List.mem_cons_self c rest, rfl, hc.1, hc.2⟩
      simp [bindStatics, findPosition_eq_none hc.2, hc.1]
    · have hex2 : ∃ x ∈ rest, x.required = true ∧ ∀ q ∈ headerMap, q.2 ≠ x.header := by
        rcases hex with ⟨x, hx, hxreq, hxabs⟩
        rcases List.mem_cons.mp hx with rfl | hx2
        · exact absurd ⟨hxreq, hxabs⟩ hc
        · exact ⟨x, hx2, hxreq, hxabs⟩
      rcases ih hex2 with ⟨h, hbind, x, hx, hxh, hxreq, hxabs⟩
      refine ⟨h, ?_, x, List.mem_cons_of_mem c hx, hxh, hxreq, hxabs⟩
      cases hfp : findPosition headerMap c.header with
      | none =>
        cases hcreq : c.required with
        | true => exact absurd ⟨hcreq, findPosition_none_forall hfp⟩ hc
        | false => simp [bindStatics, hfp, hcreq, hbind]
      | some p => simp [bindStatics, hfp, hbind]

theorem collectUnmatched_skip_claimed (cols : List Column)
    (hm1 hm2 : List (Nat × String)) (row : List (Nat × CellValue))
    (hclaimed : ∀ q ∈ hm1, ∃ c ∈ cols, c.header = q.2) :
    collectUnmatched cols (hm1 ++ hm2) row = collectUnmatched cols hm2 row := by
  induction hm1 with
  | nil => rfl
  | cons q rest ih =>
    rcases hclaimed q (List.mem_cons_self q rest) with ⟨c, hc, hch⟩
    have hany : cols.any (fun x => x.header = q.2) = true :=
      List.any_eq_true.mpr ⟨c, hc, by simp [hch]⟩
    cases q with
    | mk p h =>
      simp only [List.cons_append, collectUnmatched]
      rw [if_pos (by simpa using hany)]
      exact ih (fun x hx => hclaimed x (List.mem_cons_of_mem _ hx))

theorem collectUnmatched_unclaimed (cols : List Column) (ks : List String) (j : Nat)
    (row : List (Nat × CellValue)) (g : String → Option CellValue)
    (hfree : ∀ k ∈ ks, ∀ c ∈ cols, c.header ≠ k)
    (hrow : ∀ q ∈ posHeader ks j, alookup row q.1 = g q.2) :
    collectUnmatched cols (posHeader ks j) row =
      ks.filterMap (fun k => (g k).map (fun v => (k, v))) := by
  induction ks generalizing j with
  | nil => rfl
  | cons k rest ih =>
    have hhead : ((j : Nat), k) ∈ posHeader (k :: rest) j := by
      simp [posHeader, withPositions]
    have hanyf : cols.any (fun x => x.header = k) = false := by
      rw [List.any_eq_false]
      intro c hc
      simpa using hfree k (List.mem_cons_self k rest) c hc
    have hrowk := hrow (j, k) hhead
    have hrest : ∀ q ∈ posHeader rest (j + 1), alookup row q.1 = g q.2 := by
      intro q hq
      apply hrow
      simp only [posHeader, withPositions, List.map_cons, List.mem_cons]
      right
      simpa [posHeader] using hq
    have ihr := ih (j + 1) (fun x hx c hc => hfree x (List.mem_cons_of_mem k hx) c hc) hrest
    simp only [posHeader, withPositions, List.map_cons] at ihr ⊢
    simp only [collectUnmatched]
    rw [if_neg (by simpa using List.any_eq_false.mp hanyf)]
    simp only at hrowk
    cases hg : g k with
    | none =>
      have hrj : alookup row j = none := by rw [hrowk, hg]
      rw [hrj]
      simp [List.filterMap_cons, hg, ihr]
    | some v =>
      have hrj : alookup row j = some v := by rw [hrowk, hg]
      rw [hrj]
      simp [List.filterMap_cons, hg, ihr]

theorem constructRecord_ok (cols : List Column) (vals : List (String × Option CellValue))
    (dyn : Option (List (String × CellValue)))
    (hok : ∀ c ∈ cols, ¬(c.required = true ∧
      ((alookup vals c.fieldName).getD none).isNone = true)) :
    constructRecord cols vals dyn = .ok ⟨vals, dyn⟩ := by
  unfold constructRecord
  rw [List.find?_eq_none.mpr]
  · intro c hc
    have := hok c hc
    simp only [Bool.and_eq_true, decide_eq_true_eq]
    intro habs
    exact this ⟨habs.1, habs.2⟩

theorem mem_keysOf_of_alookup {κ β : Type} [DecidableEq κ] {d : List (κ × β)} {k : κ}
    {v : β} (h : alookup d k = some v) : k ∈ keysOf d := by
  by_contra habs
  rw [alookup_eq_none habs] at h
  exact absurd h (by simp)

theorem keysOf_cellsOf (hs : List String) (i : Nat) (f : String → Option CellValue) :
    keysOf (cellsOf hs i f) = List.range' i hs.length := by
  rw [← snd_withPositions]
  simp [cellsOf, keysOf, List.map_map]

theorem posHeader_append (l r : List String) (i : Nat) :
    posHeader (l ++ r) i = posHeader l i ++ posHeader r (i + l.length) := by
  simp [posHeader, withPositions_append]

theorem mem_withPositions_of_mem {hs : List String} {h : String} (hmem : h ∈ hs)
    (i : Nat) : ∃ q ∈ withPositions hs i, q.1 = h := by
  have : h ∈ keysOf (withPositions hs i) := by rw [keysOf_withPositions]; exact hmem
  rcases List.mem_map.mp this with ⟨q, hq, hqe⟩
  exact ⟨q, hq, hqe⟩

theorem nodup_dynKeyList (dynamicField : Option DynamicColumn)
    (instances : List Instance) : (dynKeyList dynamicField instances).Nodup := by
  cases dynamicField with
  | none => simp [dynKeyList]
  | some d => exact sortStrings_nodup (List.nodup_dedup _)

theorem mem_dynKeyList {d : DynamicColumn} {instances : List Instance} {k : String} :
    k ∈ dynKeyList (some d) instances ↔ k ∈ collectDynamicKeys instances d := by
  rw [dynKeyList, mem_sortStrings, List.mem_dedup]

/-- Row-level round trip: assembling the extracted cells of a written row
against the written header map reconstructs the instance's static values
and exactly its dynamic pairs among the closed keys. -/
theorem assembleRow_writeRow (m : ModelClass) (inst : Instance) (cK : List String)
    (hndAll : (m.columns.map Column.header ++ cK).Nodup)
    (hfld : (m.columns.map Column.fieldName).Nodup)
    (hstat : ∀ c ∈ m.columns, (staticAttr inst c.fieldName).isSome = true) :
    assembleRow m (posHeader (m.columns.map Column.header ++ cK) 1)
      (extractRowData (cellsOf (m.columns.map Column.header ++ cK) 1
        (dictGet (buildRowData inst m.columns m.dynamicField cK)))) true =
    .ok ⟨m.columns.map (fun c => (c.fieldName, staticAttr inst c.fieldName)),
         m.dynamicField.map (fun d =>
           cK.filterMap (fun k => (instDynLookup inst d k).map (fun v => (k, v))))⟩ := by
  set staticH := m.columns.map Column.header with hstaticH
  set allH := staticH ++ cK with hallH
  set rowData := buildRowData inst m.columns m.dynamicField cK with hrowData
  set f := dictGet rowData with hf
  set row := extractRowData (cellsOf allH 1 f) with hrow
  set hmap := posHeader allH 1 with hhmap
  have hs : staticH.Nodup := (List.nodup_append.mp hndAll).1
  have hK : cK.Nodup := (List.nodup_append.mp hndAll).2.1
  have hdisj : staticH.Disjoint cK := (List.nodup_append.mp hndAll).2.2
  have hrowDataEq := buildRowData_eq inst m.columns m.dynamicField cK hndAll
  have hfstatic : ∀ c ∈ m.columns, f c.header = staticAttr inst c.fieldName := by
    intro c hc
    have hmem : c.header ∈ keysOf
        (m.columns.map (fun x => (x.header, extractStaticFieldValue inst x))) := by
      simp [keysOf, List.map_map]
      exact ⟨c, hc, rfl⟩
    rw [hf, hrowData, hrowDataEq, dictGet, alookup_append_left hmem,
      alookup_map_pair m.columns Column.header (extractStaticFieldValue inst) c hc hs]
    rfl
  have hfdyn : ∀ d, m.dynamicField = some d →
      ∀ k ∈ cK, f k = instDynLookup inst d k := by
    intro d hd k hk
    have hnmem : k ∉ keysOf
        (m.columns.map (fun x => (x.header, extractStaticFieldValue inst x))) := by
      intro habs
      have : k ∈ staticH := by
        simpa [keysOf, List.map_map, hstaticH] using habs
      exact hdisj this hk
    rw [hf, hrowData, hrowDataEq, dictGet, hd, alookup_append_right hnmem,
      alookup_map_pair cK (fun k => k) (fun k => instDynLookup inst d k) k hk
        (by simpa using hK)]
    rfl
  have hrowLookup : ∀ q ∈ hmap, alookup row q.1 = f q.2 := by
    intro q hq
    have hnd : (keysOf (cellsOf allH 1 f)).Nodup := by
      rw [keysOf_cellsOf]
      exact List.nodup_range' _ _
    rw [hrow, extractRowData_of_nodup _ hnd, alookup_filterMap _ hnd,
      alookup_cellsOf (by rw [← hhmap]; exact hq)]
    rfl
  have hbind : bindStatics m.columns hmap row =
      .ok (m.columns.map (fun c => (c.fieldName, staticAttr inst c.fieldName))) := by
    have hok := bindStatics_ok m.columns hmap row f ?_
    · rw [hok]
      congr 1
      apply List.map_congr_left
      intro c hc
      rw [hfstatic c hc]
    · intro c hc
      have hmem : c.header ∈ allH := by
        rw [hallH]
        exact List.mem_append_left _ (hstaticH ▸ List.mem_map_of_mem Column.header hc)
      rcases Option.isSome_iff_exists.mp (findPosition_isSome hmem 1) with ⟨p, hp⟩
      refine ⟨p, hp, ?_⟩
      exact hrowLookup (p, c.header) (findPosition_mem (hhmap ▸ hp))
  cases hdynF : m.dynamicField with
  | none =>
    rw [assembleRow, hbind]
    simp only [hdynF, Option.map_none]
    apply constructRecord_ok
    intro c hc
    rw [alookup_map_pair m.columns Column.fieldName
      (fun c => staticAttr inst c.fieldName) c hc hfld]
    have := hstat c hc
    simp only [Option.getD_some]
    intro habs
    rw [Option.isNone_iff_eq_none] at habs
    rw [habs.2] at this
    exact absurd this (by simp)
  | some d =>
    have hcollect : collectUnmatched m.columns hmap row =
        cK.filterMap (fun k => (instDynLookup inst d k).map (fun v => (k, v))) := by
      rw [hhmap, hallH, posHeader_append]
      rw [collectUnmatched_skip_claimed m.columns _ _ row ?_]
      · rw [collectUnmatched_unclaimed m.columns cK (1 + staticH.length) row f ?_ ?_]
        · apply List.filterMap_congr
          intro k hk
          rw [hfdyn d hdynF k hk]
        · intro k hk c hc habs
          exact hdisj (habs ▸ List.mem_map_of_mem Column.header hc) hk
        · intro q hq
          apply hrowLookup
          rw [hhmap, hallH, posHeader_append]
          exact List.mem_append_right _ hq
      · intro q hq
        have : q.2 ∈ staticH := snd_posHeader_mem hq
        rcases List.mem_map.mp (hstaticH ▸ this) with ⟨c, hc, hce⟩
        exact ⟨c, hc, hce⟩
    rw [assembleRow, hbind]
    simp only [hdynF, Option.map_some, if_pos rfl]
    rw [hcollect]
    apply constructRecord_ok
    intro c hc
    rw [alookup_map_pair m.columns Column.fieldName
      (fun c => staticAttr inst c.fieldName) c hc hfld]
    have := hstat c hc
    simp only [Option.getD_some]
    intro habs
    rw [Option.isNone_iff_eq_none] at habs
    rw [habs.2] at this
    exact absurd this (by simp)

theorem dynAttrOk_spec {columns : List Column} {inst : Instance} {d : DynamicColumn}
    (h : dynAttrOk columns inst (some d) = true) :
    ∃ dm, alookup inst.attrs d.name = some (.dict dm) ∧ (keysOf dm).Nodup ∧
      ∀ k ∈ keysOf dm, strStrip k = k ∧ k ∉ columns.map Column.header := by
  simp only [dynAttrOk] at h
  cases ha : alookup inst.attrs d.name with
  | none => rw [ha] at h; simp at h
  | some pv =>
    cases pv with
    | cell v => rw [ha] at h; simp at h
    | dict dm =>
      rw [ha] at h
      simp only [Bool.and_eq_true, decide_eq_true_eq, List.all_eq_true] at h
      refine ⟨dm, rfl, h.1, ?_⟩
      intro k hk
      have := h.2 k hk
      simpa using this

theorem dictGet_buildRowData_static (m : ModelClass) (inst : Instance)
    (cK : List String) (hndAll : (m.columns.map Column.header ++ cK).Nodup)
    {c : Column} (hc : c ∈ m.columns) :
    dictGet (buildRowData inst m.columns m.dynamicField cK) c.header =
      staticAttr inst c.fieldName := by
  have hs : (m.columns.map Column.header).Nodup := (List.nodup_append.mp hndAll).1
  have hmem : c.header ∈ keysOf
      (m.columns.map (fun x => (x.header, extractStaticFieldValue inst x))) := by
    simp [keysOf, List.map_map]
    exact ⟨c, hc, rfl⟩
  rw [dictGet, buildRowData_eq inst m.columns m.dynamicField cK hndAll,
    alookup_append_left hmem,
    alookup_map_pair m.columns Column.header (extractStaticFieldValue inst) c hc hs]
  rfl

theorem assemble_map_ok (m : ModelClass) (headerMap : List (Nat × String))
    (instances : List Instance) (rowOf : Instance → List (Nat × CellValue))
    (recOf : Instance → RecordData)
    (hrow : ∀ inst ∈ instances,
      assembleRow m headerMap (rowOf inst) true = .ok (recOf inst)) :
    assemble m headerMap (instances.map rowOf) true = .ok (instances.map recOf) := by
  induction instances with
  | nil => rfl
  | cons inst rest ih =>
    have h1 := hrow inst (List.mem_cons_self inst rest)
    have h2 := ih (fun x hx => hrow x (List.mem_cons_of_mem inst hx))
    simp [assemble, h1, h2]

theorem forall₂_map_left {α β : Type} (l : List α) (f : α → β) (P : β → α → Prop)
    (h : ∀ a ∈ l, P (f a) a) : List.Forall₂ P (l.map f) l := by
  induction l with
  | nil => exact List.Forall₂.nil
  | cons a t ih =>
    exact List.Forall₂.cons (h a (List.mem_cons_self a t))
      (ih (fun x hx => h x (List.mem_cons_of_mem a hx)))

theorem alookup_filterMap_keys (cK : List String) (g : String → Option CellValue)
    (hnd : cK.Nodup) {k : String} (hk : k ∈ cK) :
    alookup (cK.filterMap (fun x => (g x).map (fun v => (x, v)))) k = g k := by
  have hmm : cK.filterMap (fun x => (g x).map (fun v => (x, v))) =
      (cK.map (fun x => (x, g x))).filterMap (fun q => q.2.map (fun v => (q.1, v))) := by
    rw [List.filterMap_map]
    rfl
  have hkeys : keysOf (cK.map (fun x => (x, g x))) = cK := by
    rw [keysOf, List.map_map]
    have hcomp : (Prod.fst ∘ fun x : String => (x, g x)) = fun x : String => x := rfl
    rw [hcomp]
    simp
  rw [hmm, alookup_filterMap _ (by rw [hkeys]; exact hnd) k,
    alookup_map_pair cK (fun x => x) g k hk (by simpa using hnd)]
  rfl

theorem batch_disjoint (m : ModelClass) (insts : List Instance)
    (hio : ∀ inst ∈ insts, InstanceOk m inst) :
    ∀ k ∈ dynKeyList m.dynamicField insts, k ∉ m.columns.map Column.header := by
  intro k hk habs
  cases hdf : m.dynamicField with
  | none => rw [hdf] at hk; simp [dynKeyList] at hk
  | some d =>
    rw [hdf] at hk
    rcases mem_collectDynamicKeys.mp (mem_dynKeyList.mp hk) with
      ⟨inst, hinst, dm, hadm, hkdm⟩
    have hok := (hio inst hinst).2
    rw [hdf] at hok
    rcases dynAttrOk_spec hok with ⟨dm2, hadm2, _, hprops⟩
    rw [hadm] at hadm2
    injection hadm2 with h3
    injection h3 with h4
    rw [h4] at hkdm
    exact (hprops k hkdm).2 habs

theorem batch_strip (m : ModelClass) (insts : List Instance)
    (hvm : ValidModel m) (hio : ∀ inst ∈ insts, InstanceOk m inst) :
    ∀ h ∈ m.columns.map Column.header ++ dynKeyList m.dynamicField insts,
      strStrip h = h := by
  intro h hmem
  rcases List.mem_append.mp hmem with hm | hm
  · rcases List.mem_map.mp hm with ⟨c, hc, rfl⟩
    exact hvm.2.2.2 c hc
  · cases hdf : m.dynamicField with
    | none => rw [hdf] at hm; simp [dynKeyList] at hm
    | some d =>
      rw [hdf] at hm
      rcases mem_collectDynamicKeys.mp (mem_dynKeyList.mp hm) with
        ⟨inst, hinst, dm, hadm, hkdm⟩
      have hok := (hio inst hinst).2
      rw [hdf] at hok
      rcases dynAttrOk_spec hok with ⟨dm2, hadm2, _, hprops⟩
      rw [hadm] at hadm2
      injection hadm2 with h3
      injection h3 with h4
      rw [h4] at hkdm
      exact (hprops h hkdm).1

theorem batch_nodup_all (m : ModelClass) (insts : List Instance)
    (hvm : ValidModel m) (hio : ∀ inst ∈ insts, InstanceOk m inst) :
    (m.columns.map Column.header ++ dynKeyList m.dynamicField insts).Nodup := by
  rw [List.nodup_append]
  refine ⟨hvm.2.1, nodup_dynKeyList _ _, ?_⟩
  intro a ha1 ha2
  exact batch_disjoint m insts hio a ha2 ha1

theorem write_normal_form (m : ModelClass) (insts : List Instance) (fp : String)
    (hvm : ValidModel m) (hio : ∀ inst ∈ insts, InstanceOk m inst)
    (hne : insts ≠ []) :
    toExcel m insts fp = .ok (writeExcelSheet
      (withPositions (m.columns.map Column.header ++
        dynKeyList m.dynamicField insts) 1)
      (buildDataRows insts m.columns m.dynamicField)) := by
  have hndAll := batch_nodup_all m insts hvm hio
  unfold toExcel write
  rw [if_neg hne, if_neg (by simp), if_neg hvm.1,
    buildHeaders_eq_withPositions m insts hndAll]

theorem row_not_blank (m : ModelClass) (inst : Instance) (cK : List String)
    (hndAll : (m.columns.map Column.header ++ cK).Nodup)
    (hne : m.columns ≠ [])
    (hstat : ∀ c ∈ m.columns, (staticAttr inst c.fieldName).isSome = true) :
    extractRowData (cellsOf (m.columns.map Column.header ++ cK) 1
      (dictGet (buildRowData inst m.columns m.dynamicField cK))) ≠ [] := by
  intro habs
  rcases List.exists_mem_of_ne_nil m.columns hne with ⟨c0, hc0⟩
  have hmem : c0.header ∈ m.columns.map Column.header ++ cK :=
    List.mem_append_left _ (List.mem_map_of_mem Column.header hc0)
  rcases mem_withPositions_of_mem hmem 1 with ⟨q, hq, hq1⟩
  have hcell : (q.2, dictGet (buildRowData inst m.columns m.dynamicField cK) q.1) ∈
      cellsOf (m.columns.map Column.header ++ cK) 1
        (dictGet (buildRowData inst m.columns m.dynamicField cK)) :=
    List.mem_map_of_mem _ hq
  have hval := (extractRowData_eq_nil_iff _).mp habs _ hcell
  simp only [hq1] at hval
  rw [dictGet_buildRowData_static m inst cK hndAll hc0] at hval
  have := hstat c0 hc0
  rw [hval] at this
  exact absurd this (by simp)

/-- Claim C1 (round trip): writing a batch of valid instances with
`toExcel` and reading the produced worksheet back with dynamic collection
enabled yields a list of the same length, whose records equal the
originals on every declared static field and on the dynamic mapping
restricted to the keys present on each original instance. -/
theorem claim_C1_round_trip (m : ModelClass) (insts : List Instance) (fp : String)
    (hvm : ValidModel m) (hio : ∀ inst ∈ insts, InstanceOk m inst)
    (hne : insts ≠ []) :
    ∃ ws recs, toExcel m insts fp = .ok ws ∧
      fromExcelSheet m ws true = .ok recs ∧
      recs.length = insts.length ∧
      List.Forall₂ (fun rec inst =>
        (∀ c ∈ m.columns, alookup rec.staticVals c.fieldName =
          some (staticAttr inst c.fieldName)) ∧
        ∀ d, m.dynamicField = some d → ∀ k v,
          instDynLookup inst d k = some v → recDynLookup rec k = some v) recs insts := by
  have hndAll := batch_nodup_all m insts hvm hio
  have hfld := hvm.2.2.1
  refine ⟨writeExcelSheet
      (withPositions (m.columns.map Column.header ++
        dynKeyList m.dynamicField insts) 1)
      (buildDataRows insts m.columns m.dynamicField),
    insts.map (fun i =>
      (⟨m.columns.map (fun c => (c.fieldName, staticAttr i c.fieldName)),
        m.dynamicField.map (fun d =>
          (dynKeyList m.dynamicField insts).filterMap
            (fun k => (instDynLookup i d k).map (fun v => (k, v))))⟩ : RecordData)),
    write_normal_form m insts fp hvm hio hne, ?_, by simp, ?_⟩
  · have hcells : (writeExcelSheet
        (withPositions (m.columns.map Column.header ++
          dynKeyList m.dynamicField insts) 1)
        (buildDataRows insts m.columns m.dynamicField)).dataCells =
        insts.map (fun i => cellsOf
          (m.columns.map Column.header ++ dynKeyList m.dynamicField insts) 1
          (dictGet (buildRowData i m.columns m.dynamicField
            (dynKeyList m.dynamicField insts)))) := by
      show (insts.map (fun i => buildRowData i m.columns m.dynamicField
          (dynKeyList m.dynamicField insts))).map (fun row =>
            (withPositions (m.columns.map Column.header ++
              dynKeyList m.dynamicField insts) 1).map
              (fun p => (p.2, dictGet row p.1))) = _
      rw [List.map_map]
      rfl
    have hreadrows : readExcelRowsOnList (insts.map (fun i => cellsOf
        (m.columns.map Column.header ++ dynKeyList m.dynamicField insts) 1
        (dictGet (buildRowData i m.columns m.dynamicField
          (dynKeyList m.dynamicField insts))))) =
        insts.map (fun i => extractRowData (cellsOf
          (m.columns.map Column.header ++ dynKeyList m.dynamicField insts) 1
          (dictGet (buildRowData i m.columns m.dynamicField
            (dynKeyList m.dynamicField insts))))) := by
      rw [readExcelRowsOnList, List.map_map]
      apply List.filter_eq_self.mpr
      intro r hr
      rcases List.mem_map.mp hr with ⟨i, hi, rfl⟩
      simp only [Function.comp, decide_eq_true_eq]
      exact row_not_blank m i (dynKeyList m.dynamicField insts) hndAll hvm.1
        (fun c hc => (hio i hi).1 c hc)
    rw [fromExcelSheet,
      readHeadersWs_write _ _ (batch_strip m insts hvm hio), hcells, hreadrows]
    exact assemble_map_ok m _ insts _ _
      (fun i hi => assembleRow_writeRow m i (dynKeyList m.dynamicField insts)
        hndAll hfld (fun c hc => (hio i hi).1 c hc))
  · apply forall₂_map_left
    intro i hi
    constructor
    · intro c hc
      exact alookup_map_pair m.columns Column.fieldName
        (fun c => staticAttr i c.fieldName) c hc hfld
    · intro d hdf k v hkv
      have hkmem : k ∈ dynKeyList m.dynamicField insts := by
        rw [hdf]
        apply mem_dynKeyList.mpr
        apply mem_collectDynamicKeys.mpr
        unfold instDynLookup at hkv
        cases halo : alookup i.attrs d.name with
        | none => rw [halo] at hkv; simp at hkv
        | some pv =>
          cases pv with
          | cell v2 => rw [halo] at hkv; simp at hkv
          | dict dm =>
            rw [halo] at hkv
            simp only at hkv
            exact ⟨i, hi, dm, halo, mem_keysOf_of_alookup hkv⟩
      have hrec : recDynLookup
          (⟨m.columns.map (fun c => (c.fieldName, staticAttr i c.fieldName)),
            m.dynamicField.map (fun d =>
              (dynKeyList m.dynamicField insts).filterMap
                (fun k => (instDynLookup i d k).map (fun v => (k, v))))⟩ : RecordData)
          k = instDynLookup i d k := by
        rw [recDynLookup, hdf]
        simp only [Option.map_some', Option.getD_some]
        exact alookup_filterMap_keys (dynKeyList (some d) insts)
          (fun x => instDynLookup i d x) (nodup_dynKeyList _ _) (hdf ▸ hkmem)
      rw [hrec, hkv]

theorem orderedInsert_congr {α : Type} (r s : α → α → Prop) [DecidableRel r]
    [DecidableRel s] (a : α) :
    ∀ (l : List α), (∀ b ∈ l, (r a b ↔ s a b)) →
      l.orderedInsert r a = l.orderedInsert s a := by
  intro l
  induction l with
  | nil => intro _; rfl
  | cons b t ih =>
    intro hagree
    by_cases hr : r a b
    · have hsb : s a b := (hagree b (List.mem_cons_self b t)).mp hr
      simp [List.orderedInsert, hr, hsb]
    · have hsb : ¬ s a b := fun hs => hr ((hagree b (List.mem_cons_self b t)).mpr hs)
      simp [List.orderedInsert, hr, hsb,
        ih (fun x hx => hagree x (List.mem_cons_of_mem b hx))]

theorem insertionSort_congr {α : Type} (r s : α → α → Prop) [DecidableRel r]
    [DecidableRel s] :
    ∀ (l : List α), (∀ a ∈ l, ∀ b ∈ l, (r a b ↔ s a b)) →
      l.insertionSort r = l.insertionSort s := by
  intro l
  induction l with
  | nil => intro _; rfl
  | cons a t ih =>
    intro hagree
    have hsort := ih (fun x hx y hy =>
      hagree x (List.mem_cons_of_mem a hx) y (List.mem_cons_of_mem a hy))
    simp only [List.insertionSort, hsort]
    apply orderedInsert_congr
    intro b hb
    have hbmem : b ∈ t := (List.perm_insertionSort s t).subset hb
    exact hagree a (List.mem_cons_self a t) b (List.mem_cons_of_mem a hbmem)

theorem resolveLayout_congr (staticHeaders sortedDyn : List String)
    (r1 r2 : String → Option Int)
    (hdom : ∀ h ∈ staticHeaders ++ sortedDyn, (r1 h).isSome = (r2 h).isSome)
    (horder : ∀ h ∈ staticHeaders ++ sortedDyn, ∀ h2 ∈ staticHeaders ++ sortedDyn,
      (r1 h).isSome = true → (r1 h2).isSome = true →
      (rankLe r1 h h2 ↔ rankLe r2 h h2)) :
    resolveLayout staticHeaders r1 sortedDyn = resolveLayout staticHeaders r2 sortedDyn := by
  have hnone : ∀ h ∈ staticHeaders ++ sortedDyn, (r1 h).isNone = (r2 h).isNone := by
    intro h hh
    have := hdom h hh
    cases h1 : r1 h <;> cases h2 : r2 h <;> simp_all
  have hfilterSome : (staticHeaders ++ sortedDyn).filter (fun h => (r1 h).isSome) =
      (staticHeaders ++ sortedDyn).filter (fun h => (r2 h).isSome) :=
    List.filter_congr (fun h hh => hdom h hh)
  have hfilterNone : (staticHeaders ++ sortedDyn).filter (fun h => (r1 h).isNone) =
      (staticHeaders ++ sortedDyn).filter (fun h => (r2 h).isNone) :=
    List.filter_congr (fun h hh => hnone h hh)
  have hsorteq : List.insertionSort (rankLe r1)
      ((staticHeaders ++ sortedDyn).filter (fun h => (r1 h).isSome)) =
      List.insertionSort (rankLe r2)
        ((staticHeaders ++ sortedDyn).filter (fun h => (r2 h).isSome)) := by
    rw [← hfilterSome]
    apply insertionSort_congr
    intro a ha b hb
    have hamem := List.mem_filter.mp ha
    have hbmem := List.mem_filter.mp hb
    exact horder a hamem.1 b hbmem.1 (by simpa using hamem.2) (by simpa using hbmem.2)
  rw [resolveLayout, resolveLayout, hsorteq, hfilterNone]

/-- Claim C7 (gap normalization): two resolver calls over the same headers
whose rank hints have the same ranked set and the same relative order of
the `(rank, header)` keys produce identical layouts — the final positions
depend only on the sort order of the hints, not on the rank magnitudes. -/
theorem claim_C7_gap_normalization (staticHeaders dynKeys : List String)
    (f1 f2 : String → Option Int) (g1 g2 : List String → List (String × Int))
    (hdom : ∀ h ∈ staticHeaders ++ sortStrings dynKeys.dedup,
      (combinedRank staticHeaders (some f1)
        (dynRanksOf (some g1) (sortStrings dynKeys.dedup)) h).isSome =
      (combinedRank staticHeaders (some f2)
        (dynRanksOf (some g2) (sortStrings dynKeys.dedup)) h).isSome)
    (horder : ∀ h ∈ staticHeaders ++ sortStrings dynKeys.dedup,
      ∀ h2 ∈ staticHeaders ++ sortStrings dynKeys.dedup,
        (combinedRank staticHeaders (some f1)
          (dynRanksOf (some g1) (sortStrings dynKeys.dedup)) h).isSome = true →
        (combinedRank staticHeaders (some f1)
          (dynRanksOf (some g1) (sortStrings dynKeys.dedup)) h2).isSome = true →
        (rankLe (combinedRank staticHeaders (some f1)
          (dynRanksOf (some g1) (sortStrings dynKeys.dedup))) h h2 ↔
         rankLe (combinedRank staticHeaders (some f2)
          (dynRanksOf (some g2) (sortStrings dynKeys.dedup))) h h2)) :
    resolve staticHeaders (some f1) dynKeys (some g1) =
      resolve staticHeaders (some f2) dynKeys (some g2) := by
  unfold resolve
  by_cases hcol : dynKeys.any (fun k => decide (k ∈ staticHeaders)) = true
  · rw [if_pos hcol, if_pos hcol]
  · rw [if_neg hcol, if_neg hcol]
    congr 1
    exact resolveLayout_congr staticHeaders (sortStrings dynKeys.dedup) _ _ hdom horder

theorem sortStrings_set_eq {l1 l2 : List String}
    (h12 : ∀ k ∈ l1, k ∈ l2) (h21 : ∀ k ∈ l2, k ∈ l1) :
    sortStrings l1.dedup = sortStrings l2.dedup := by
  have hperm : List.Perm l1.dedup l2.dedup := by
    rw [List.perm_ext_iff_of_nodup (List.nodup_dedup l1) (List.nodup_dedup l2)]
    intro a
    rw [List.mem_dedup, List.mem_dedup]
    exact ⟨h12 a, h21 a⟩
  exact List.eq_of_perm_of_sorted
    ((sortStrings_perm _).trans (hperm.trans (sortStrings_perm _).symm))
    (sortStrings_sorted _) (sortStrings_sorted _)

theorem extract_nonblank_bool (cells : List (Nat × Option CellValue)) :
    decide (extractRowData cells ≠ []) = cells.any (fun c => c.2.isSome) := by
  by_cases hcase : extractRowData cells = []
  · have hall := (extractRowData_eq_nil_iff cells).mp hcase
    rw [decide_eq_false (by simp [hcase])]
    rw [eq_comm, List.any_eq_false]
    intro c hc
    rw [hall c hc]
    simp
  · rw [decide_eq_true hcase]
    rw [eq_comm, List.any_eq_true]
    by_contra habs
    push_neg at habs
    apply hcase
    rw [extractRowData_eq_nil_iff]
    intro c hc
    have := habs c hc
    cases hv : c.2 with
    | none => rfl
    | some v =>
      rw [hv] at this
      exact absurd (by simp : (some v).isSome = true) this

/-- Claim C2 (unranked fallback, amended): provided no header is claimed
twice — the schema's static headers are distinct and no dynamic key of the
batch equals a static header — the layout built by `_build_headers` with no
order hints is exactly the static headers in declaration order followed by
the batch's distinct dynamic keys in lexicographic order, with positions
1..N in that sequence. -/
theorem claim_C2_unranked_fallback (m : ModelClass) (insts : List Instance)
    (hnd : (m.columns.map Column.header ++ dynKeyList m.dynamicField insts).Nodup) :
    buildHeaders m.columns m.dynamicField insts =
      withPositions (m.columns.map Column.header ++
        dynKeyList m.dynamicField insts) 1 :=
  buildHeaders_eq_withPositions m insts hnd

theorem claim_C2_counterexample :
    ¬ (buildHeaders mCollide.columns mCollide.dynamicField [instCollide] =
      withPositions (mCollide.columns.map Column.header ++
        dynKeyList mCollide.dynamicField [instCollide]) 1) := by
  decide

theorem claim_C2_witness :
    ((mForecast.columns.map Column.header ++
      dynKeyList mForecast.dynamicField [instZ]).Nodup) ∧
    buildHeaders mForecast.columns mForecast.dynamicField [instZ] =
      [("Month", 1), ("Manager", 2), ("Alpha", 3), ("Beta", 4), ("Zebra", 5)] := by
  refine ⟨by decide, ?_⟩
  rw [claim_C2_unranked_fallback mForecast [instZ] (by decide)]
  decide

/-- Claim C3 (layout invariant, amended): provided no dynamic key of the
batch collides with a static header and the static headers are distinct,
every layout built on the write path satisfies the invariant — positions
form the contiguous set 1..N, each distinct header has one position, and
the header set is exactly the union of the static headers and the batch's
observed dynamic keys. -/
theorem claim_C3_layout_invariant (m : ModelClass) (insts : List Instance)
    (hnd : (m.columns.map Column.header ++ dynKeyList m.dynamicField insts).Nodup) :
    LayoutInvariant (buildHeaders m.columns m.dynamicField insts)
      (m.columns.map Column.header) (dynKeyList m.dynamicField insts) := by
  rw [buildHeaders_eq_withPositions m insts hnd]
  have hkeys := keysOf_withPositions
    (m.columns.map Column.header ++ dynKeyList m.dynamicField insts) 1
  have hlen : (withPositions (m.columns.map Column.header ++
      dynKeyList m.dynamicField insts) 1).length =
      (m.columns.map Column.header ++ dynKeyList m.dynamicField insts).length := by
    have := congrArg List.length hkeys
    simpa [keysOf] using this
  refine ⟨?_, ?_, ?_, ?_, ?_⟩
  · rw [snd_withPositions, hlen]
  · rw [hkeys]
    exact hnd
  · intro h hh
    rw [hkeys] at hh
    exact List.mem_append.mp hh
  · intro h hh
    rw [hkeys]
    exact List.mem_append_left _ hh
  · intro k hk
    rw [hkeys]
    exact List.mem_append_right _ hk

theorem claim_C3_counterexample :
    ¬ LayoutInvariant (buildHeaders mCollide.columns mCollide.dynamicField [instCollide])
      (mCollide.columns.map Column.header)
      (dynKeyList mCollide.dynamicField [instCollide]) := by
  decide

theorem claim_C3_witness :
    ((mForecast.columns.map Column.header ++
      dynKeyList mForecast.dynamicField [instZ]).Nodup) ∧
    LayoutInvariant (buildHeaders mForecast.columns mForecast.dynamicField [instZ])
      (mForecast.columns.map Column.header) (dynKeyList mForecast.dynamicField [instZ]) :=
  ⟨by decide, claim_C3_layout_invariant mForecast [instZ] (by decide)⟩

/-- Claim C4 (header collision, amended): a write batch in which some
dynamic key equals a static column header does not fail — the writer
raises no configuration error and resolves the collision silently, the
dynamic pass overwriting the static column's position. -/
theorem claim_C4_collision_silent (m : ModelClass) (insts : List Instance)
    (fp : String) (hne : insts ≠ []) (hcols : m.columns ≠ [])
    (hcol : hasCollision m insts) :
    exceptIsOk (write m insts (some fp) false) = true := by
  unfold write
  rw [if_neg hne, if_neg (by simp), if_neg hcols]
  rfl

theorem claim_C4_counterexample :
    hasCollision mCollide [instCollide] ∧
    exceptIsOk (write mCollide [instCollide] (some "out.xlsx") false) = true := by
  decide

theorem claim_C4_witness :
    (([instCollide] : List Instance) ≠ []) ∧ mCollide.columns ≠ [] ∧
    hasCollision mCollide [instCollide] ∧
    exceptIsOk (write mCollide [instCollide] (some "f.xlsx") false) = true :=
  ⟨by decide, by decide, by decide,
    claim_C4_collision_silent mCollide [instCollide] "f.xlsx"
      (by decide) (by decide) (by decide)⟩

/-- Claim C5 (empty-batch rejection): `ExcelWriter.write` (and so
`ExcelModel.to_excel`) on an empty instance list fails immediately with
the usage error; the error is raised before any headers, rows or sheet
are built, so no output is produced. -/
theorem claim_C5_empty_batch (m : ModelClass) (fp : Option String) (rb : Bool)
    (fp2 : String) :
    write m [] fp rb = .error .emptyInstances ∧
      toExcel m [] fp2 = .error .emptyInstances :=
  ⟨rfl, rfl⟩

/-- Claim C6 (missing required column): reading a non-empty grid whose
header row lacks the display header of a required static column fails with
`ColumnNotFoundError` naming a required missing header, and no batch of
records is returned. -/
theorem claim_C6_missing_required (model : ModelClass)
    (headerMap : List (Nat × String)) (rows : List (List (Nat × CellValue)))
    (allowDynamic : Bool) (hrows : rows ≠ [])
    (hmiss : ∃ c ∈ model.columns, c.required = true ∧
      ∀ q ∈ headerMap, q.2 ≠ c.header) :
    ∃ h, assemble model headerMap rows allowDynamic = .error (.columnNotFound h) ∧
      ∃ c ∈ model.columns, c.header = h ∧ c.required = true ∧
        ∀ q ∈ headerMap, q.2 ≠ h := by
  cases rows with
  | nil => exact absurd rfl hrows
  | cons r rest =>
    rcases bindStatics_missing_required model.columns headerMap r hmiss with
      ⟨h, hbind, hprop⟩
    refine ⟨h, ?_, hprop⟩
    simp [assemble, assembleRow, hbind]

theorem claim_C6_witness :
    (rowsMissingPhone ≠ []) ∧
    (∃ c ∈ mUser.columns, c.required = true ∧
      ∀ q ∈ hmMissingPhone, q.2 ≠ c.header) ∧
    ∃ h, assemble mUser hmMissingPhone rowsMissingPhone true =
        .error (.columnNotFound h) ∧
      ∃ c ∈ mUser.columns, c.header = h ∧ c.required = true ∧
        ∀ q ∈ hmMissingPhone, q.2 ≠ h :=
  ⟨by decide, by decide,
    claim_C6_missing_required mUser hmMissingPhone rowsMissingPhone true
      (by decide) (by decide)⟩

/-- Claim C8 (determinism): the header layout depends on the collected
dynamic key set only through its membership — two batches whose collected
key sets are equal as sets give identical header-to-position mappings, so
the layout cannot depend on the iteration order of the unordered set. -/
theorem claim_C8_determinism (cols : List Column) (d : DynamicColumn)
    (insts1 insts2 : List Instance)
    (h12 : ∀ k ∈ collectDynamicKeys insts1 d, k ∈ collectDynamicKeys insts2 d)
    (h21 : ∀ k ∈ collectDynamicKeys insts2 d, k ∈ collectDynamicKeys insts1 d) :
    buildHeaders cols (some d) insts1 = buildHeaders cols (some d) insts2 := by
  simp only [buildHeaders]
  rw [sortStrings_set_eq h12 h21]

theorem claim_C8_witness :
    (∀ k ∈ collectDynamicKeys [instZ] ⟨"characteristics"⟩,
      k ∈ collectDynamicKeys [instZ2] ⟨"characteristics"⟩) ∧
    (∀ k ∈ collectDynamicKeys [instZ2] ⟨"characteristics"⟩,
      k ∈ collectDynamicKeys [instZ] ⟨"characteristics"⟩) ∧
    buildHeaders mForecast.columns (some ⟨"characteristics"⟩) [instZ] =
      buildHeaders mForecast.columns (some ⟨"characteristics"⟩) [instZ2] :=
  ⟨by decide, by decide,
    claim_C8_determinism mForecast.columns ⟨"characteristics"⟩ [instZ] [instZ2]
      (by decide) (by decide)⟩

/-- Claim C9 (blank-row skipping): `read_excel_rows` returns, in worksheet
row order, the extracted data of exactly those rows in the requested range
that contain at least one non-null cell; a fully blank row contributes no
entry. -/
theorem claim_C9_blank_rows (sheet : Sheet) (startRow : Nat) (maxRow : Option Nat) :
    readExcelRows sheet startRow maxRow =
      ((List.range' startRow ((maxRow.getD sheet.maxRow) + 1 - startRow)).filter
        (fun n => (sheet.rowCells n).any (fun c => c.2.isSome))).map
        (fun n => extractRowData (sheet.rowCells n)) := by
  simp only [readExcelRows, readExcelRowsOnList]
  rw [List.map_map, List.filter_map]
  have hfil : (List.range' startRow ((maxRow.getD sheet.maxRow) + 1 - startRow)).filter
      ((fun r => decide (r ≠ [])) ∘ (extractRowData ∘ sheet.rowCells)) =
      (List.range' startRow ((maxRow.getD sheet.maxRow) + 1 - startRow)).filter
        (fun n => (sheet.rowCells n).any (fun c => c.2.isSome)) :=
    List.filter_congr (fun n _ => extract_nonblank_bool (sheet.rowCells n))
  rw [hfil]
  rfl

/-- Claim C10 (tolerant dynamic-key collection): a key belongs to the
collected dynamic key set exactly when some instance of the batch carries
a dict dynamic attribute containing it — an instance whose dynamic
attribute is absent or not a dict contributes nothing — and no attribute
shape makes the write fail: every non-empty batch over a model with static
columns writes successfully. -/
theorem claim_C10_tolerant_collection (m : ModelClass) (instances : List Instance)
    (d : DynamicColumn) (fp : String) (k : String)
    (hne : instances ≠ []) (hcols : m.columns ≠ []) :
    (k ∈ collectDynamicKeys instances d ↔
      ∃ inst ∈ instances, ∃ dm,
        alookup inst.attrs d.name = some (.dict dm) ∧ k ∈ keysOf dm) ∧
    exceptIsOk (write m instances (some fp) false) = true := by
  refine ⟨mem_collectDynamicKeys, ?_⟩
  unfold write
  rw [if_neg hne, if_neg (by simp), if_neg hcols]
  rfl

theorem claim_C10_witness :
    (([instBadDyn] : List Instance) ≠ []) ∧ (mForecast.columns ≠ []) ∧
    (("Zebra" ∈ collectDynamicKeys [instBadDyn] ⟨"characteristics"⟩ ↔
      ∃ inst ∈ [instBadDyn], ∃ dm,
        alookup inst.attrs (DynamicColumn.mk "characteristics").name =
          some (.dict dm) ∧ "Zebra" ∈ keysOf dm) ∧
     exceptIsOk (write mForecast [instBadDyn] (some "out.xlsx") false) = true) :=
  ⟨by decide, by decide,
    claim_C10_tolerant_collection mForecast [instBadDyn] ⟨"characteristics"⟩
      "out.xlsx" "Zebra" (by decide) (by decide)⟩

theorem claim_C7_witness :
    (∀ h ∈ ["A", "B"] ++ sortStrings (["K"] : List String).dedup,
      (combinedRank ["A", "B"] (some rankGap1)
        (dynRanksOf (some dynRankGap1) (sortStrings (["K"] : List String).dedup)) h).isSome =
      (combinedRank ["A", "B"] (some rankGap2)
        (dynRanksOf (some dynRankGap2) (sortStrings (["K"] : List String).dedup)) h).isSome) ∧
    (∀ h ∈ ["A", "B"] ++ sortStrings (["K"] : List String).dedup,
      ∀ h2 ∈ ["A", "B"] ++ sortStrings (["K"] : List String).dedup,
        (combinedRank ["A", "B"] (some rankGap1)
          (dynRanksOf (some dynRankGap1) (sortStrings (["K"] : List String).dedup)) h).isSome = true →
        (combinedRank ["A", "B"] (some rankGap1)
          (dynRanksOf (some dynRankGap1) (sortStrings (["K"] : List String).dedup)) h2).isSome = true →
        (rankLe (combinedRank ["A", "B"] (some rankGap1)
          (dynRanksOf (some dynRankGap1) (sortStrings (["K"] : List String).dedup))) h h2 ↔
         rankLe (combinedRank ["A", "B"] (some rankGap2)
          (dynRanksOf (some dynRankGap2) (sortStrings (["K"] : List String).dedup))) h h2)) ∧
    resolve ["A", "B"] (some rankGap1) ["K"] (some dynRankGap1) =
      resolve ["A", "B"] (some rankGap2) ["K"] (some dynRankGap2) ∧
    resolve ["A", "B"] (some rankGap1) ["K"] (some dynRankGap1) =
      .ok [("A", 1), ("B", 2), ("K", 3)] :=
  ⟨by decide, by decide,
    claim_C7_gap_normalization ["A", "B"] ["K"] rankGap1 rankGap2
      dynRankGap1 dynRankGap2 (by decide) (by decide),
    by decide⟩

theorem claim_C1_witness :
    ValidModel mForecast ∧ (∀ inst ∈ [instZ], InstanceOk mForecast inst) ∧
    (([instZ] : List Instance) ≠ []) ∧
    (∃ ws recs, toExcel mForecast [instZ] "out.xlsx" = .ok ws ∧
      fromExcelSheet mForecast ws true = .ok recs ∧
      recs.length = [instZ].length ∧
      List.Forall₂ (fun rec inst =>
        (∀ c ∈ mForecast.columns, alookup rec.staticVals c.fieldName =
          some (staticAttr inst c.fieldName)) ∧
        ∀ d, mForecast.dynamicField = some d → ∀ k v,
          instDynLookup inst d k = some v → recDynLookup rec k = some v)
        recs [instZ]) :=
  ⟨by decide, by decide, by decide,
    claim_C1_round_trip mForecast [instZ] "out.xlsx"
      (by decide) (by decide) (by decide)⟩
